import Mathlib

/-!
# Verification of the OpenSEO crawler core

A shallow embedding of the crawler orchestrator (`backend/tasks/crawler.py`),
the internal-link graph analyzer (`backend/utils/internal_linking_analyzer.py`),
the security-header analyzer (`backend/utils/security_analyzer.py`) and the
readability analyzer (`backend/utils/content_analyzer.py`), together with
theorems settling the specification's claims about them.

Conventions used throughout:
- Python strings are `String`, Python ints are `Nat`/`Int`, Python floats that
  only carry exact decimal arithmetic are `ℚ`.  Where the source applies
  `round(x, 1)` to a value a claim speaks about (`avg_links_per_page`), the
  rounding is modelled exactly as round-half-to-even on the rational
  (`pyRound1`); floats are idealized as exact rationals throughout.
- Python `dict` is an insertion-ordered association list `List (key × value)`
  (CPython dicts preserve insertion order; overwriting keeps the position).
- Python `set` is a `Finset` when only membership/cardinality matter; where the
  source *iterates* a set and the iteration order is observable, the embedding
  fixes insertion order and this is noted at the definition.
- Fallible Python code (raising exceptions) returns `Option`/`Except`.
-/

namespace OpenSEO

/-! ## Shared data model (backend/models.py) -/

/-- `PageIssue` from models.py: {url, issue_type, severity, message, details}.
`details` is only ever a {"missing": [...]} map in the crawler; it is modelled
as the optional list of strings stored under that key. -/
structure PageIssue where
  url : String
  issue_type : String
  severity : String
  message : String
  details : Option (List String) := none
deriving Repr, DecidableEq

/-! ## Security-header analyzer (backend/utils/security_analyzer.py) -/

/-- `SecurityHeaders` from models.py. The `recommendations` field (pure advice
strings, touched by no claim) is omitted. -/
structure SecurityHeaders where
  content_security_policy : Option String := none
  strict_transport_security : Option String := none
  x_content_type_options : Option String := none
  x_frame_options : Option String := none
  referrer_policy : Option String := none
  permissions_policy : Option String := none
  score : Nat
  missing_headers : List String
deriving Repr, DecidableEq

/-- `str.lower()` as a character-wise map (the library `String.toLower` is
equivalent but does not reduce definitionally, which blocks `decide`). -/
def strLower (s : String) : String := String.mk (s.data.map Char.toLower)

/-- `str.upper()` as a character-wise map. -/
def strUpper (s : String) : String := String.mk (s.data.map Char.toUpper)

/-- Python truthiness of an optional string: `None` and `""` are falsy. -/
def truthy : Option String → Bool
  | none => false
  | some s => s ≠ ""

/-- Python `a or b` on optional strings: `a` if truthy, else `b`. -/
def pyOr (a b : Option String) : Option String :=
  if truthy a then a else b

/-- Lookup in the normalized header dict `{k.lower(): v for k, v in headers.items()}`:
with duplicate lowercased keys the later entry overwrites, hence the *last*
matching value. -/
def normGet (headers : List (String × String)) (key : String) : Option String :=
  (headers.filterMap (fun p => if strLower p.1 = key then some p.2 else none)).getLast?

/-- `analyze_security_headers(headers)`: presence/well-formedness checks on the
six fixed headers, a weighted score and the list of missing header names, in
source order.  (The `recommendations` accumulator of the source is dropped,
see `SecurityHeaders`.) -/
def analyze_security_headers (headers : List (String × String)) : SecurityHeaders :=
  let csp := normGet headers "content-security-policy"
  let hsts := normGet headers "strict-transport-security"
  let x_content_type := normGet headers "x-content-type-options"
  let x_frame := normGet headers "x-frame-options"
  let referrer := normGet headers "referrer-policy"
  let permissions := pyOr (normGet headers "permissions-policy")
    (normGet headers "feature-policy")
  -- score / missing accumulation, following the source's branch order
  let (s₁, m₁) := if truthy csp then (20, []) else (0, ["Content-Security-Policy"])
  let (s₂, m₂) := if truthy hsts then (s₁ + 20, m₁)
    else (s₁, m₁ ++ ["Strict-Transport-Security"])
  let (s₃, m₃) :=
    if truthy x_content_type ∧ strLower (x_content_type.getD "") = "nosniff"
    then (s₂ + 15, m₂) else (s₂, m₂ ++ ["X-Content-Type-Options"])
  let (s₄, m₄) :=
    if truthy x_frame ∧ strUpper (x_frame.getD "") ∈ ["DENY", "SAMEORIGIN"]
    then (s₃ + 20, m₃) else (s₃, m₃ ++ ["X-Frame-Options"])
  let (s₅, m₅) := if truthy referrer then (s₄ + 10, m₄)
    else (s₄, m₄ ++ ["Referrer-Policy"])
  let (s₆, m₆) := if truthy permissions then (s₅ + 15, m₅)
    else (s₅, m₅ ++ ["Permissions-Policy"])
  { content_security_policy := csp
    strict_transport_security := hsts
    x_content_type_options := x_content_type
    x_frame_options := x_frame
    referrer_policy := referrer
    permissions_policy := permissions
    score := s₆
    missing_headers := m₆ }

/-- C8: on a header map containing only `x-frame-options: DENY`, the score is
strictly between 0 and 100 and `missing_headers` is exactly the other five
expected header names. -/
theorem security_headers_only_xfo_deny :
    0 < (analyze_security_headers [("x-frame-options", "DENY")]).score ∧
    (analyze_security_headers [("x-frame-options", "DENY")]).score < 100 ∧
    (analyze_security_headers [("x-frame-options", "DENY")]).missing_headers =
      ["Content-Security-Policy", "Strict-Transport-Security",
       "X-Content-Type-Options", "Referrer-Policy", "Permissions-Policy"] := by
  decide

/-! ## Content analyzer (backend/utils/content_analyzer.py)

String-scanning helpers take an explicit fuel argument, always called with the
input length.  Every recursive call both consumes fuel and strictly shortens
the list, so the fuel never runs out on those calls: the `0` branches are dead
code, present only to make the recursion structural (hence computable by the
kernel). -/

/-- `ReadabilityScore` from models.py.  Numeric fields are exact rationals;
the source's `round(x, 1)` display rounding of floats is not modelled. -/
structure ReadabilityScore where
  flesch_reading_ease : Option ℚ := none
  flesch_kincaid_grade : Option ℚ := none
  word_count : Nat := 0
  sentence_count : Nat := 0
  avg_words_per_sentence : ℚ := 0
  complex_words_count : Nat := 0
  reading_time_minutes : ℚ := 0
deriving Repr, DecidableEq

/-- Characters matched by the regex class `\w` (ASCII; Unicode word characters
beyond ASCII are not modelled). -/
def isWordChar (c : Char) : Bool := c.isAlphanum || c = '_'

/-- `re.sub(r'<[^>]+>', rep, ·)`: replace each leftmost non-overlapping
occurrence of `<`, one-or-more non-`>` characters, `>` by `rep`.  Since `[^>]`
cannot match `>`, each match necessarily ends at the first `>` after its `<`. -/
def stripTagsFuel (rep : List Char) : Nat → List Char → List Char
  | 0, _ => []
  | _ + 1, [] => []
  | fuel + 1, c :: rest =>
    if c = '<' then
      match rest.dropWhile (fun x => x ≠ '>') with
      | '>' :: tail =>
        if (rest.takeWhile (fun x => x ≠ '>')).isEmpty then
          '<' :: stripTagsFuel rep fuel rest      -- "<>" : empty inside, no match here
        else rep ++ stripTagsFuel rep fuel tail   -- matched through the first '>'
      | _ => '<' :: stripTagsFuel rep fuel rest   -- no closing '>' : no match here
    else c :: stripTagsFuel rep fuel rest

def stripTags (rep text : String) : String :=
  String.mk (stripTagsFuel rep.data text.data.length text.data)

/-- `re.findall(r'\b\w+\b', ·)`: the maximal runs of word characters. -/
def findWordsFuel : Nat → List Char → List (List Char)
  | 0, _ => []
  | _ + 1, [] => []
  | fuel + 1, c :: rest =>
    if isWordChar c then
      (c :: rest.takeWhile isWordChar) :: findWordsFuel fuel (rest.dropWhile isWordChar)
    else findWordsFuel fuel rest

def findWords (text : String) : List String :=
  (findWordsFuel text.data.length text.data).map String.mk

/-- The sentence-terminator class `[.!?]`. -/
def isSentencePunct (c : Char) : Bool := c = '.' || c = '!' || c = '?'

/-- `re.split(r'[.!?]+', ·)`: the pieces between maximal terminator runs
(empty pieces at the boundaries included, as `re.split` produces them). -/
def splitSentencesFuel : Nat → List Char → List (List Char)
  | 0, _ => [[]]
  | _ + 1, [] => [[]]
  | fuel + 1, c :: rest =>
    if isSentencePunct c then
      [] :: splitSentencesFuel fuel (rest.dropWhile isSentencePunct)
    else
      match splitSentencesFuel fuel rest with
      | [] => [[c]]
      | p :: ps => (c :: p) :: ps

/-- Python `str.strip()` (whitespace on both ends). -/
def trimChars (l : List Char) : List Char :=
  ((l.dropWhile Char.isWhitespace).reverse.dropWhile Char.isWhitespace).reverse

/-- `count_syllables(word)`: vowel-group counting, at most-3-letter words and
words with no vowel group count as one syllable. -/
def countVowelGroups : List Char → Bool → Nat
  | [], _ => 0
  | c :: rest, prevWasVowel =>
    let isVowel := c ∈ ['a', 'e', 'i', 'o', 'u', 'y']
    (if isVowel ∧ ¬prevWasVowel then 1 else 0) + countVowelGroups rest isVowel

def count_syllables (word : String) : Nat :=
  let w := strLower word
  if w.length ≤ 3 then 1
  else
    let w' := if w.data.getLast? = some 'e' then w.data.dropLast else w.data
    max 1 (countVowelGroups w' false)

/-- Python `/`: raises `ZeroDivisionError` on a zero denominator, so the
embedding returns `none` there. -/
def checkedDiv (a b : ℚ) : Option ℚ := if b = 0 then none else some (a / b)

/-- The tag-stripped text of `calculate_readability` (line 46 of the source). -/
def readabilityText (text : String) : String := stripTags "" text

/-- The word list of `calculate_readability`: `re.findall(r'\b\w+\b', text.lower())`
on the tag-stripped text. -/
def readabilityWords (text : String) : List String :=
  findWords (strLower (readabilityText text))

/-- The sentence count of `calculate_readability`: split on `[.!?]+`, strip
each piece, keep the nonempty ones. -/
def readabilitySentenceCount (text : String) : Nat :=
  (((splitSentencesFuel (readabilityText text).data.length
      (readabilityText text).data).map trimChars).filter (· ≠ [])).length

/-- `calculate_readability(text, title, h1)`.  The `title`/`h1` parameters are
present in the source's signature but unused by its body.  Fallible divisions
are threaded through `Option`. -/
def calculate_readability (text : String) (title : String := "") (h1 : String := "") :
    Option ReadabilityScore :=
  if text = "" then some {}
  else
    let _ := title
    let _ := h1
    let sentence_count := readabilitySentenceCount text
    let words := readabilityWords text
    let word_count := words.length
    if sentence_count = 0 ∨ word_count = 0 then some { word_count := word_count }
    else do
      let syllable_count := (words.map count_syllables).sum
      let complex_words := (words.filter (fun w => 3 ≤ count_syllables w)).length
      let avg_words_per_sentence ← checkedDiv (word_count : ℚ) (sentence_count : ℚ)
      let avg_syllables_per_word ← checkedDiv (syllable_count : ℚ) (word_count : ℚ)
      let reading_time ← checkedDiv (word_count : ℚ) 200
      some { flesch_reading_ease := some (206835/1000 - 1015/1000 * avg_words_per_sentence
               - 846/10 * avg_syllables_per_word),
             flesch_kincaid_grade := some (39/100 * avg_words_per_sentence
               + 118/10 * avg_syllables_per_word - 1559/100),
             word_count := word_count,
             sentence_count := sentence_count,
             avg_words_per_sentence := avg_words_per_sentence,
             complex_words_count := complex_words,
             reading_time_minutes := reading_time }

/-- C10: `calculate_readability` is total — `count_syllables` returns at least
1 on every word, zero-sentence or zero-word text short-circuits to a default
`ReadabilityScore` carrying only the word count, and in the remaining case
every division has a nonzero denominator, so no `ZeroDivisionError` can occur. -/
theorem calculate_readability_safe (text title h1 w : String) :
    1 ≤ count_syllables w ∧
    (calculate_readability text title h1).isSome ∧
    (readabilitySentenceCount text = 0 ∨ (readabilityWords text).length = 0 →
      calculate_readability text title h1 =
        some { word_count := (readabilityWords text).length }) := by
  refine ⟨?_, ?_, ?_⟩
  · unfold count_syllables
    dsimp only
    split
    · exact le_refl 1
    · exact Nat.le_max_left 1 _
  · unfold calculate_readability
    split
    · simp
    · dsimp only
      split
      · simp
      · rename_i hguard
        push_neg at hguard
        simp only [checkedDiv, Option.isSome, Option.bind_eq_bind, Option.bind]
        rw [if_neg (by exact_mod_cast hguard.1), if_neg (by exact_mod_cast hguard.2),
          if_neg (by norm_num)]
  · intro hzero
    unfold calculate_readability
    split
    · rename_i hempty
      subst hempty
      have : readabilityWords "" = [] := by
        cases h : readabilityWords "" with
        | nil => rfl
        | cons a l =>
          exfalso
          have : readabilityWords "" = [] := by
            simp [readabilityWords, readabilityText, stripTags, stripTagsFuel, findWords,
              findWordsFuel, strLower]
          simp [this] at h
      rw [this]
      rfl
    · dsimp only
      rw [if_pos hzero]

/-- Witness for C10 at `text = "!!!"` (nonempty, zero words): the guard fires. -/
theorem calculate_readability_safe_witness :
    1 ≤ count_syllables "hello" ∧
    (calculate_readability "!!!" "" "").isSome ∧
    calculate_readability "!!!" "" "" = some { word_count := 0 } := by
  obtain ⟨h1, h2, h3⟩ := calculate_readability_safe "!!!" "" "" "hello"
  refine ⟨h1, h2, ?_⟩
  have hw : (readabilityWords "!!!").length = 0 := by decide
  have := h3 (Or.inr hw)
  rwa [hw] at this

/-! ## Internal linking analyzer (backend/utils/internal_linking_analyzer.py)

The analyzer reads two keys of each page dict, `url` and `internal_links`,
modelled as a pair.  Python dicts are insertion-ordered association lists
(`dictInsert` overwrites in place and appends new keys at the end); Python
sets appearing as dict values are deduplicated lists or `Finset`s when only
membership/cardinality is read.  Python's set iteration order is unspecified;
insertion order is the fixed admissible choice made here, and no theorem
below depends on the choice. -/

def dictKeys {A : Type} (m : List (String × A)) : List String := m.map Prod.fst

def dictGet? {A : Type} (m : List (String × A)) (k : String) : Option A :=
  (m.find? (fun p => p.1 = k)).map Prod.snd

def dictInsert {A : Type} (m : List (String × A)) (k : String) (v : A) :
    List (String × A) :=
  if k ∈ dictKeys m then m.map (fun p => if p.1 = k then (k, v) else p) else m ++ [(k, v)]

/-- `url_to_incoming[link].add(url)` on the defaultdict of sets. -/
def incomingAdd (m : List (String × Finset String)) (link url : String) :
    List (String × Finset String) :=
  if link ∈ dictKeys m then m.map (fun p => if p.1 = link then (p.1, insert url p.2) else p)
  else m ++ [(link, {url})]

/-- A bare defaultdict read `url_to_incoming[k]` inserts an empty set when the
key is missing. -/
def defaultTouch (m : List (String × Finset String)) (k : String) :
    List (String × Finset String) :=
  if k ∈ dictKeys m then m else m ++ [(k, ∅)]

/-- The set value read by `url_to_incoming[k]`. -/
def incomingGet (m : List (String × Finset String)) (k : String) : Finset String :=
  (dictGet? m k).getD ∅

/-- Insertion-ordered model of `set.add`. -/
def listInsert (l : List String) (x : String) : List String :=
  if x ∈ l then l else l ++ [x]

structure LinkGraph where
  url_to_links : List (String × List String)
  url_to_incoming : List (String × Finset String)
  all_urls : List String

/-- One iteration of the graph-building loop (source lines 28–37). -/
def recordPage (g : LinkGraph) (page : String × List String) : LinkGraph :=
  let url := page.1
  let internal_links := page.2
  let all1 := listInsert g.all_urls url
  let utl := dictInsert g.url_to_links url internal_links.dedup  -- set(internal_links)
  let acc := internal_links.foldl
    (fun (acc : List (String × Finset String) × List String) link =>
      (incomingAdd acc.1 link url, listInsert acc.2 link))
    (g.url_to_incoming, all1)
  ⟨utl, acc.1, acc.2⟩

def buildLinkGraph (pages_data : List (String × List String)) : LinkGraph :=
  pages_data.foldl recordPage ⟨[], [], []⟩

/-- The orphan-page scan (source lines 42–46).  Evaluation order matters: when
`url` is not a key of `url_to_links` the conjunction short-circuits, so
`url_to_incoming[url]` is never read and no empty set is inserted for it;
when it is a key, the defaultdict read happens before the zero test. -/
def orphanPass (base_url : String) (utlKeys : List String)
    (uti : List (String × Finset String)) (all_urls : List String) :
    List (String × Finset String) × List String :=
  all_urls.foldl
    (fun (acc : List (String × Finset String) × List String) url =>
      if url ∈ utlKeys then
        let uti' := defaultTouch acc.1 url
        if (incomingGet uti' url).card = 0 ∧ url ≠ base_url
        then (uti', acc.2 ++ [url]) else (uti', acc.2)
      else acc)
    (uti, [])

/-- One step of the BFS inner loop (source lines 103–107): a link that is not
yet visited and belongs to `all_urls` is enqueued with depth
`current_depth + 1`. -/
def bfsStep (all_urls : List String) (current_depth : Int)
    (acc : List String × Finset String × List (String × Int)) (url : String) :
    List String × Finset String × List (String × Int) :=
  if url ∉ acc.2.1 ∧ url ∈ all_urls then
    (acc.1 ++ [url], insert url acc.2.1, acc.2.2 ++ [(url, current_depth + 1)])
  else acc

/-- Each expansion enqueues exactly as many URLs as it newly visits, and newly
visited URLs come from `all_urls`: the measure
`|queue| + 2·|all_urls \ visited|` never increases across the fold. -/
theorem bfsStep_measure (all_urls : List String) (d : Int) (outgoing : List String) :
    ∀ acc : List String × Finset String × List (String × Int),
      (outgoing.foldl (bfsStep all_urls d) acc).1.length +
        2 * ((all_urls.toFinset \ (outgoing.foldl (bfsStep all_urls d) acc).2.1).card) ≤
      acc.1.length + 2 * ((all_urls.toFinset \ acc.2.1).card) := by
  induction outgoing with
  | nil => intro acc; simp
  | cons u rest ih =>
    intro acc
    rw [List.foldl_cons]
    refine le_trans (ih _) ?_
    unfold bfsStep
    split
    · rename_i h
      simp only [List.length_append, List.length_cons, List.length_nil]
      have hmem : u ∈ all_urls.toFinset \ acc.2.1 := by
        rw [Finset.mem_sdiff, List.mem_toFinset]
        exact ⟨h.2, h.1⟩
      have hcard : (all_urls.toFinset \ insert u acc.2.1).card + 1 =
          (all_urls.toFinset \ acc.2.1).card := by
        rw [Finset.sdiff_insert, Finset.card_erase_of_mem hmem]
        have : 0 < (all_urls.toFinset \ acc.2.1).card := Finset.card_pos.mpr ⟨u, hmem⟩
        omega
      omega
    · exact le_refl _

/-- The BFS while-loop of `calculate_click_depths` (source lines 96–107). -/
def bfsLoop (url_to_links : List (String × List String)) (all_urls : List String) :
    List String → Finset String → List (String × Int) → List (String × Int)
  | [], _, depths => depths
  | current :: queue, visited, depths =>
    let current_depth := (dictGet? depths current).getD 0
    let outgoing := (dictGet? url_to_links current).getD []
    let s := outgoing.foldl (bfsStep all_urls current_depth) (queue, visited, depths)
    bfsLoop url_to_links all_urls s.1 s.2.1 s.2.2
termination_by queue visited _ => queue.length + 2 * ((all_urls.toFinset \ visited).card)
decreasing_by
  calc (outgoing.foldl (bfsStep all_urls current_depth) (queue, visited, depths)).1.length
        + 2 * ((all_urls.toFinset \
            (outgoing.foldl (bfsStep all_urls current_depth) (queue, visited, depths)).2.1).card)
      ≤ queue.length + 2 * ((all_urls.toFinset \ visited).card) :=
        bfsStep_measure all_urls current_depth outgoing (queue, visited, depths)
    _ < (current :: queue).length + 2 * ((all_urls.toFinset \ visited).card) := by
        simp [List.length_cons]

/-- `calculate_click_depths(base_url, url_to_links, all_urls)` (source lines
86–114): BFS from the base URL, then depth `-1` for every URL of `all_urls`
missing from the depth dict. -/
def calculate_click_depths (base_url : String) (url_to_links : List (String × List String))
    (all_urls : List String) : List (String × Int) :=
  let depths := bfsLoop url_to_links all_urls [base_url] {base_url} [(base_url, 0)]
  all_urls.foldl (fun dep url => if url ∈ dictKeys dep then dep else dep ++ [(url, -1)]) depths

/-- Python `round(x)` to an integer: round-half-to-even (banker's
rounding). -/
def roundHalfEven (q : ℚ) : ℤ :=
  let f := ⌊q⌋
  if q - (f : ℚ) < 1/2 then f
  else if 1/2 < q - (f : ℚ) then f + 1
  else if f % 2 = 0 then f else f + 1

/-- Python `round(x, 1)`: scale by 10, round half-to-even, unscale
(source line 81 applies it to `avg_links`). -/
def pyRound1 (q : ℚ) : ℚ := (roundHalfEven (q * 10) : ℚ) / 10

/-- `InternalLinkingStats` from models.py.  The dict entries of
`pages_with_few_links` and `most_linked_pages` are modelled by their
(url, count) payload; the constant `suggestion` string is dropped.
`avg_links_per_page` carries `round(avg_links, 1)` exactly as the source
computes it (modelled by `pyRound1` on the exact rational). -/
structure InternalLinkingStats where
  total_internal_links : Nat
  unique_internal_links : Nat
  orphan_pages : List String
  pages_with_few_links : List (String × Nat)
  most_linked_pages : List (String × Nat)
  avg_links_per_page : ℚ
  max_click_depth : Int
deriving Repr, DecidableEq

/-- `analyze_internal_linking(pages_data, base_url)` (source lines 11–83). -/
def analyze_internal_linking (pages_data : List (String × List String)) (base_url : String) :
    InternalLinkingStats :=
  let g := buildLinkGraph pages_data
  let click_depths := calculate_click_depths base_url g.url_to_links g.all_urls
  let op := orphanPass base_url (dictKeys g.url_to_links) g.url_to_incoming g.all_urls
  let pages_with_few_links := g.url_to_links.filterMap
    (fun p => if p.2.length < 3 then some (p.1, p.2.length) else none)
  let incoming_counts := op.1.map (fun p => (p.1, p.2.card))
  -- `list.sort(key=..., reverse=True)` is a stable sort; a stable sort's output
  -- is uniquely determined, and the structurally recursive (kernel-computable)
  -- insertion sort is stable, so it is the executable model used here.
  let most_linked := (List.insertionSort (fun a b => b.2 ≤ a.2) incoming_counts).take 10
  let total_internal : Nat := (g.url_to_links.map (fun p => p.2.length)).sum
  let unique_internal := (g.url_to_links.flatMap Prod.snd).dedup.length
  let avg_links : ℚ := if g.url_to_links.isEmpty then 0
    else (total_internal : ℚ) / (g.url_to_links.length : ℚ)
  let max_depth : Int := if click_depths.isEmpty then 0
    else (click_depths.map Prod.snd).max?.getD 0
  { total_internal_links := total_internal
    unique_internal_links := unique_internal
    orphan_pages := op.2
    pages_with_few_links := pages_with_few_links.take 10
    most_linked_pages := most_linked
    avg_links_per_page := pyRound1 avg_links
    max_click_depth := max_depth }

/-! ### Characterization of the built link graph -/

theorem mem_listInsert (l : List String) (x u : String) :
    u ∈ listInsert l x ↔ u ∈ l ∨ u = x := by
  unfold listInsert
  split
  · rename_i h
    constructor
    · exact Or.inl
    · rintro (hu | rfl)
      · exact hu
      · exact h
  · simp

theorem mem_foldl_listInsert (links : List String) :
    ∀ (l0 : List String) (u : String),
      u ∈ links.foldl listInsert l0 ↔ u ∈ l0 ∨ u ∈ links := by
  induction links with
  | nil => simp
  | cons x rest ih =>
    intro l0 u
    rw [List.foldl_cons, ih, mem_listInsert]
    simp only [List.mem_cons]
    tauto

theorem incomingGet_nil (k : String) : incomingGet [] k = ∅ := rfl

/-- `find?` after the overwriting `map` of `incomingAdd`: the found entry is
transformed exactly when the searched key is the overwritten one. -/
theorem find?_incomingAdd_map (m : List (String × Finset String)) (link url k : String) :
    (m.map (fun p => if p.1 = link then (p.1, insert url p.2) else p)).find?
        (fun p => p.1 = k) =
      if k = link then
        (m.find? (fun p => p.1 = k)).map (fun p => (p.1, insert url p.2))
      else m.find? (fun p => p.1 = k) := by
  induction m with
  | nil => split <;> simp
  | cons p rest ih =>
    by_cases hpk : p.1 = k
    · rw [List.map_cons,
        List.find?_cons_of_pos _ (by simp only [decide_eq_true_eq]; split <;> simpa),
        List.find?_cons_of_pos _ (by simpa using hpk)]
      by_cases hkl : k = link
      · subst hkl
        rw [if_pos rfl, if_pos hpk]
        simp
      · rw [if_neg hkl, if_neg (show ¬p.1 = link from fun h => hkl (hpk ▸ h))]
    · rw [List.map_cons,
        List.find?_cons_of_neg _ (by simp only [decide_eq_true_eq]; split <;> simpa),
        List.find?_cons_of_neg _ (by simpa using hpk), ih]

theorem find?_key_mem {A : Type} {m : List (String × A)} {k : String}
    (h : k ∈ dictKeys m) : ∃ q ∈ m, m.find? (fun p => p.1 = k) = some q ∧ q.1 = k := by
  rcases List.mem_map.mp h with ⟨q0, hq0, hq1⟩
  have hsome : (m.find? (fun p => p.1 = k)).isSome := by
    rw [List.find?_isSome]
    exact ⟨q0, hq0, by simpa using hq1⟩
  rcases Option.isSome_iff_exists.mp hsome with ⟨q, hq⟩
  exact ⟨q, List.mem_of_find?_eq_some hq, hq, by simpa using List.find?_some hq⟩

theorem find?_key_not_mem {A : Type} {m : List (String × A)} {k : String}
    (h : k ∉ dictKeys m) : m.find? (fun p => p.1 = k) = none := by
  rw [List.find?_eq_none]
  intro p hp
  simp only [decide_eq_true_eq]
  intro h1
  exact h (List.mem_map.mpr ⟨p, hp, h1⟩)

theorem incomingGet_incomingAdd (m : List (String × Finset String)) (link url k : String) :
    incomingGet (incomingAdd m link url) k =
      if k = link then insert url (incomingGet m k) else incomingGet m k := by
  unfold incomingAdd
  split
  · rename_i hmem
    unfold incomingGet dictGet?
    rw [find?_incomingAdd_map]
    by_cases hkl : k = link
    · subst hkl
      rw [if_pos rfl, if_pos rfl]
      rcases find?_key_mem hmem with ⟨q, _, hfind, _⟩
      rw [hfind]
      simp
    · rw [if_neg hkl, if_neg hkl]
  · rename_i hmem
    unfold incomingGet dictGet?
    rw [List.find?_append]
    by_cases hkl : k = link
    · subst hkl
      rw [find?_key_not_mem hmem, if_pos rfl]
      simp [find?_key_not_mem hmem]
    · rw [if_neg hkl]
      cases hf : m.find? (fun p => p.1 = k) with
      | some q => simp
      | none =>
        simp only [Option.none_or]
        rw [List.find?_cons_of_neg _
            (by simp only [decide_eq_true_eq]; exact fun h => hkl h.symm),
          List.find?_nil]

theorem mem_incomingGet_incomingAdd (m : List (String × Finset String))
    (link url x k : String) :
    x ∈ incomingGet (incomingAdd m link url) k ↔
      x ∈ incomingGet m k ∨ (x = url ∧ k = link) := by
  rw [incomingGet_incomingAdd]
  split
  · rename_i h
    subst h
    simp only [Finset.mem_insert]
    tauto
  · rename_i h
    constructor
    · exact Or.inl
    · rintro (hx | ⟨rfl, rfl⟩)
      · exact hx
      · exact absurd rfl h

theorem recordPage_fold_split (url : String) (links : List String) :
    ∀ (uti : List (String × Finset String)) (all : List String),
      links.foldl (fun acc link => (incomingAdd acc.1 link url, listInsert acc.2 link))
          (uti, all)
        = (links.foldl (fun m link => incomingAdd m link url) uti,
           links.foldl listInsert all) := by
  induction links with
  | nil => intro uti all; rfl
  | cons l rest ih =>
    intro uti all
    rw [List.foldl_cons, List.foldl_cons, List.foldl_cons]
    exact ih _ _

theorem mem_foldl_incomingAdd (url : String) (links : List String) :
    ∀ (m : List (String × Finset String)) (x k : String),
      x ∈ incomingGet (links.foldl (fun m link => incomingAdd m link url) m) k ↔
        x ∈ incomingGet m k ∨ (x = url ∧ k ∈ links) := by
  induction links with
  | nil => simp
  | cons l rest ih =>
    intro m x k
    rw [List.foldl_cons, ih, mem_incomingGet_incomingAdd]
    simp only [List.mem_cons]
    tauto

theorem dictKeys_dictInsert {A : Type} (m : List (String × A)) (k : String) (v : A) :
    dictKeys (dictInsert m k v) =
      if k ∈ dictKeys m then dictKeys m else dictKeys m ++ [k] := by
  unfold dictInsert
  split <;> rename_i h
  · unfold dictKeys
    rw [List.map_map]
    apply List.map_congr_left
    intro p _
    simp only [Function.comp_apply]
    split <;> rename_i hp1
    · simp [hp1]
    · rfl
  · unfold dictKeys
    simp

theorem mem_dictKeys_dictInsert {A : Type} (m : List (String × A)) (k : String) (v : A)
    (j : String) : j ∈ dictKeys (dictInsert m k v) ↔ j ∈ dictKeys m ∨ j = k := by
  rw [dictKeys_dictInsert]
  split <;> rename_i h
  · constructor
    · exact Or.inl
    · rintro (hj | rfl)
      · exact hj
      · exact h
  · simp

theorem dictKeys_nodup_dictInsert {A : Type} (m : List (String × A)) (k : String) (v : A)
    (h : (dictKeys m).Nodup) : (dictKeys (dictInsert m k v)).Nodup := by
  rw [dictKeys_dictInsert]
  split <;> rename_i hk
  · exact h
  · rw [List.nodup_append]
    exact ⟨h, List.nodup_singleton _, by simpa using hk⟩

theorem recordPage_url_to_links (g : LinkGraph) (page : String × List String) :
    (recordPage g page).url_to_links = dictInsert g.url_to_links page.1 page.2.dedup := rfl

theorem recordPage_url_to_incoming (g : LinkGraph) (page : String × List String) :
    (recordPage g page).url_to_incoming =
      page.2.foldl (fun m link => incomingAdd m link page.1) g.url_to_incoming := by
  show (page.2.foldl _ (g.url_to_incoming, listInsert g.all_urls page.1)).1 = _
  rw [recordPage_fold_split]

theorem recordPage_all_urls (g : LinkGraph) (page : String × List String) :
    (recordPage g page).all_urls =
      page.2.foldl listInsert (listInsert g.all_urls page.1) := by
  show (page.2.foldl _ (g.url_to_incoming, listInsert g.all_urls page.1)).2 = _
  rw [recordPage_fold_split]

theorem build_aux (pages : List (String × List String)) :
    ∀ g : LinkGraph,
      (∀ u, u ∈ dictKeys (pages.foldl recordPage g).url_to_links ↔
        u ∈ dictKeys g.url_to_links ∨ u ∈ pages.map Prod.fst) ∧
      (∀ x k, x ∈ incomingGet (pages.foldl recordPage g).url_to_incoming k ↔
        x ∈ incomingGet g.url_to_incoming k ∨ ∃ p ∈ pages, p.1 = x ∧ k ∈ p.2) ∧
      (∀ u, u ∈ (pages.foldl recordPage g).all_urls ↔
        u ∈ g.all_urls ∨ u ∈ pages.map Prod.fst ∨ ∃ p ∈ pages, u ∈ p.2) := by
  induction pages with
  | nil => intro g; simp
  | cons p ps ih =>
    intro g
    rw [List.foldl_cons]
    obtain ⟨ih1, ih2, ih3⟩ := ih (recordPage g p)
    refine ⟨fun u => ?_, fun x k => ?_, fun u => ?_⟩
    · rw [ih1, recordPage_url_to_links, mem_dictKeys_dictInsert]
      simp only [List.map_cons, List.mem_cons, List.mem_dedup]
      tauto
    · rw [ih2, recordPage_url_to_incoming, mem_foldl_incomingAdd]
      simp only [List.mem_cons]
      constructor
      · rintro ((h | ⟨rfl, hk⟩) | ⟨q, hq, hq1, hq2⟩)
        · exact Or.inl h
        · exact Or.inr ⟨p, Or.inl rfl, rfl, hk⟩
        · exact Or.inr ⟨q, Or.inr hq, hq1, hq2⟩
      · rintro (h | ⟨q, (rfl | hq), hq1, hq2⟩)
        · exact Or.inl (Or.inl h)
        · exact Or.inl (Or.inr ⟨hq1.symm, hq2⟩)
        · exact Or.inr ⟨q, hq, hq1, hq2⟩
    · rw [ih3, recordPage_all_urls, mem_foldl_listInsert, mem_listInsert]
      simp only [List.map_cons, List.mem_cons]
      constructor
      · rintro (((h | h) | h) | h | ⟨q, hq, hq2⟩)
        · exact Or.inl h
        · exact Or.inr (Or.inl (Or.inl h))
        · exact Or.inr (Or.inr ⟨p, Or.inl rfl, h⟩)
        · exact Or.inr (Or.inl (Or.inr h))
        · exact Or.inr (Or.inr ⟨q, Or.inr hq, hq2⟩)
      · rintro (h | (h | h) | ⟨q, (rfl | hq), hq2⟩)
        · exact Or.inl (Or.inl (Or.inl h))
        · exact Or.inl (Or.inl (Or.inr h))
        · exact Or.inr (Or.inl h)
        · exact Or.inl (Or.inr hq2)
        · exact Or.inr (Or.inr ⟨q, hq, hq2⟩)

theorem build_keys_mem (pages : List (String × List String)) (u : String) :
    u ∈ dictKeys (buildLinkGraph pages).url_to_links ↔ u ∈ pages.map Prod.fst := by
  have h := (build_aux pages ⟨[], [], []⟩).1 u
  unfold buildLinkGraph
  rw [h]
  simp [dictKeys]

theorem build_incoming_mem (pages : List (String × List String)) (x k : String) :
    x ∈ incomingGet (buildLinkGraph pages).url_to_incoming k ↔
      ∃ p ∈ pages, p.1 = x ∧ k ∈ p.2 := by
  have h := (build_aux pages ⟨[], [], []⟩).2.1 x k
  unfold buildLinkGraph
  rw [h, incomingGet_nil]
  simp

theorem build_all_mem (pages : List (String × List String)) (u : String) :
    u ∈ (buildLinkGraph pages).all_urls ↔
      u ∈ pages.map Prod.fst ∨ ∃ p ∈ pages, u ∈ p.2 := by
  have h := (build_aux pages ⟨[], [], []⟩).2.2 u
  unfold buildLinkGraph
  rw [h]
  simp

theorem build_keys_nodup (pages : List (String × List String)) :
    (dictKeys (buildLinkGraph pages).url_to_links).Nodup := by
  suffices h : ∀ g : LinkGraph, (dictKeys g.url_to_links).Nodup →
      (dictKeys (pages.foldl recordPage g).url_to_links).Nodup by
    exact h ⟨[], [], []⟩ (by simp [dictKeys])
  induction pages with
  | nil => intro g h; exact h
  | cons p ps ih =>
    intro g h
    rw [List.foldl_cons]
    refine ih _ ?_
    rw [recordPage_url_to_links]
    exact dictKeys_nodup_dictInsert _ _ _ h

theorem incomingGet_defaultTouch (m : List (String × Finset String)) (k j : String) :
    incomingGet (defaultTouch m k) j = incomingGet m j := by
  unfold defaultTouch
  split
  · rfl
  · rename_i h
    unfold incomingGet dictGet?
    rw [List.find?_append]
    cases hf : m.find? (fun p => p.1 = j) with
    | some q => simp
    | none =>
      simp only [Option.none_or]
      by_cases hjk : j = k
      · subst hjk
        rw [List.find?_cons_of_pos _ (by simp)]
        simp
      · rw [List.find?_cons_of_neg _
            (by simp only [decide_eq_true_eq]; exact fun hh => hjk hh.symm),
          List.find?_nil]

theorem orphanPass_fold (base : String) (utlKeys : List String) (all : List String) :
    ∀ (uti : List (String × Finset String)) (orphans : List String) (u : String),
      u ∈ (all.foldl
        (fun (acc : List (String × Finset String) × List String) url =>
          if url ∈ utlKeys then
            let uti' := defaultTouch acc.1 url
            if (incomingGet uti' url).card = 0 ∧ url ≠ base
            then (uti', acc.2 ++ [url]) else (uti', acc.2)
          else acc)
        (uti, orphans)).2 ↔
      u ∈ orphans ∨ (u ∈ all ∧ u ∈ utlKeys ∧ (incomingGet uti u).card = 0 ∧ u ≠ base) := by
  induction all with
  | nil => simp
  | cons a rest ih =>
    intro uti orphans u
    rw [List.foldl_cons]
    by_cases ha : a ∈ utlKeys
    · simp only [if_pos ha]
      by_cases hc : (incomingGet uti a).card = 0 ∧ a ≠ base
      · rw [if_pos (by rwa [incomingGet_defaultTouch])]
        rw [ih]
        simp only [List.mem_append, List.mem_singleton, List.mem_cons,
          incomingGet_defaultTouch]
        constructor
        · rintro ((h | rfl | h) | ⟨h1, h2, h3, h4⟩)
          · exact Or.inl h
          · exact Or.inr ⟨Or.inl rfl, ha, hc.1, hc.2⟩
          · exact absurd h (List.not_mem_nil _)
          · exact Or.inr ⟨Or.inr h1, h2, h3, h4⟩
        · rintro (h | ⟨(rfl | h1), h2, h3, h4⟩)
          · exact Or.inl (Or.inl h)
          · exact Or.inl (Or.inr (Or.inl rfl))
          · exact Or.inr ⟨h1, h2, h3, h4⟩
      · rw [if_neg (by rwa [incomingGet_defaultTouch])]
        rw [ih]
        simp only [List.mem_cons, incomingGet_defaultTouch]
        constructor
        · rintro (h | ⟨h1, h2, h3, h4⟩)
          · exact Or.inl h
          · exact Or.inr ⟨Or.inr h1, h2, h3, h4⟩
        · rintro (h | ⟨(rfl | h1), h2, h3, h4⟩)
          · exact Or.inl h
          · exact absurd ⟨h3, h4⟩ hc
          · exact Or.inr ⟨h1, h2, h3, h4⟩
    · simp only [if_neg ha]
      rw [ih]
      simp only [List.mem_cons]
      constructor
      · rintro (h | ⟨h1, h2, h3, h4⟩)
        · exact Or.inl h
        · exact Or.inr ⟨Or.inr h1, h2, h3, h4⟩
      · rintro (h | ⟨(rfl | h1), h2, h3, h4⟩)
        · exact Or.inl h
        · exact absurd h2 ha
        · exact Or.inr ⟨h1, h2, h3, h4⟩

theorem orphanPass_mem (base : String) (utlKeys : List String)
    (uti : List (String × Finset String)) (all : List String) (u : String) :
    u ∈ (orphanPass base utlKeys uti all).2 ↔
      u ∈ all ∧ u ∈ utlKeys ∧ (incomingGet uti u).card = 0 ∧ u ≠ base := by
  unfold orphanPass
  rw [orphanPass_fold]
  simp

/-- The `orphan_pages` field of the analyzer output, unfolded. -/
theorem analyze_orphan_pages (pages_data : List (String × List String)) (base_url : String) :
    (analyze_internal_linking pages_data base_url).orphan_pages =
      (orphanPass base_url (dictKeys (buildLinkGraph pages_data).url_to_links)
        (buildLinkGraph pages_data).url_to_incoming
        (buildLinkGraph pages_data).all_urls).2 := rfl

/-- C5 (amended): a crawled URL is an orphan iff it is not the root and has no
incoming internal link from *any* crawled page — including itself: a self-link
already disqualifies a page from being an orphan. -/
theorem orphan_pages_iff (pages_data : List (String × List String)) (base_url u : String) :
    u ∈ (analyze_internal_linking pages_data base_url).orphan_pages ↔
      u ∈ pages_data.map Prod.fst ∧ u ≠ base_url ∧ ∀ p ∈ pages_data, u ∉ p.2 := by
  rw [analyze_orphan_pages, orphanPass_mem]
  constructor
  · rintro ⟨_hall, hkeys, hcard, hbase⟩
    refine ⟨(build_keys_mem _ _).mp hkeys, hbase, ?_⟩
    intro p hp hmem
    have hx : p.1 ∈ incomingGet (buildLinkGraph pages_data).url_to_incoming u :=
      (build_incoming_mem _ _ _).mpr ⟨p, hp, rfl, hmem⟩
    rw [Finset.card_eq_zero] at hcard
    rw [hcard] at hx
    exact absurd hx (Finset.not_mem_empty _)
  · rintro ⟨hcrawled, hbase, hnoinc⟩
    have hkeys := (build_keys_mem pages_data u).mpr hcrawled
    refine ⟨(build_all_mem _ _).mpr (Or.inl hcrawled), hkeys, ?_, hbase⟩
    rw [Finset.card_eq_zero, Finset.eq_empty_iff_forall_not_mem]
    intro x hx
    rcases (build_incoming_mem _ _ _).mp hx with ⟨p, hp, _, hmem⟩
    exact hnoinc p hp hmem

/-- C5 counterexample: page "a" links only to itself.  It is crawled, is not
the root and has no incoming internal link from any *other* crawled page, yet
the code does not classify it as an orphan: the self-link counts as an
incoming link. -/
theorem orphan_self_link_counterexample :
    (analyze_internal_linking [("r", []), ("a", ["a"])] "r").orphan_pages = [] ∧
    "a" ∈ ([("r", ([] : List String)), ("a", ["a"])].map Prod.fst) ∧
    "a" ≠ "r" ∧
    (∀ p ∈ [("r", ([] : List String)), ("a", ["a"])], p.1 ≠ "a" → "a" ∉ p.2) := by
  decide

/-- C6 counterexample: with pages r→b and b→a, the URLs "b" and "a" both have
exactly one incoming link.  The ranking lists "b" before "a" although
"a" precedes "b" in URL (lexicographic) order, so equal counts are not ordered
by URL: the stable sort keeps dict insertion order.  Feeding the same edge set
in a different page order also permutes the tie, so the ranking is not a
deterministic function of the link graph alone. -/
theorem most_linked_tie_counterexample :
    (analyze_internal_linking [("r", ["b"]), ("b", ["a"])] "r").most_linked_pages =
      [("b", 1), ("a", 1), ("r", 0)] ∧
    "a".data < "b".data ∧
    (analyze_internal_linking [("b", ["a"]), ("r", ["b"])] "r").most_linked_pages =
      [("a", 1), ("b", 1), ("r", 0)] := by
  decide

/-- C6 (amended): the most-linked ranking is sorted by descending incoming-link
count and truncated to the top 10; URLs with equal counts keep the incoming
dict's insertion order (Python's stable sort), not URL order. -/
theorem most_linked_sorted_desc (pages_data : List (String × List String))
    (base_url : String) :
    ((analyze_internal_linking pages_data base_url).most_linked_pages).Pairwise
      (fun a b => b.2 ≤ a.2) ∧
    (analyze_internal_linking pages_data base_url).most_linked_pages.length ≤ 10 := by
  have hfield : (analyze_internal_linking pages_data base_url).most_linked_pages =
      (List.insertionSort (fun a b => b.2 ≤ a.2)
        ((orphanPass base_url (dictKeys (buildLinkGraph pages_data).url_to_links)
          (buildLinkGraph pages_data).url_to_incoming
          (buildLinkGraph pages_data).all_urls).1.map
        (fun p => (p.1, p.2.card)))).take 10 := rfl
  rw [hfield]
  constructor
  · haveI : IsTotal (String × Nat) (fun a b => b.2 ≤ a.2) := ⟨fun a b => le_total b.2 a.2⟩
    haveI : IsTrans (String × Nat) (fun a b => b.2 ≤ a.2) :=
      ⟨fun _ _ _ h1 h2 => le_trans h2 h1⟩
    have hs := List.sorted_insertionSort (fun a b : String × Nat => b.2 ≤ a.2)
      ((orphanPass base_url (dictKeys (buildLinkGraph pages_data).url_to_links)
          (buildLinkGraph pages_data).url_to_incoming
          (buildLinkGraph pages_data).all_urls).1.map (fun p => (p.1, p.2.card)))
    exact hs.sublist (List.take_sublist 10 _)
  · exact List.length_take_le 10 _

theorem build_utl_length (pages_data : List (String × List String)) :
    (buildLinkGraph pages_data).url_to_links.length =
      (pages_data.map Prod.fst).dedup.length := by
  have h1 := build_keys_nodup pages_data
  have h2 : (dictKeys (buildLinkGraph pages_data).url_to_links).toFinset =
      (pages_data.map Prod.fst).toFinset := by
    ext u
    simp only [List.mem_toFinset]
    exact build_keys_mem pages_data u
  calc (buildLinkGraph pages_data).url_to_links.length
      = (dictKeys (buildLinkGraph pages_data).url_to_links).length := by
        unfold dictKeys
        rw [List.length_map]
    _ = (dictKeys (buildLinkGraph pages_data).url_to_links).toFinset.card := by
        rw [List.toFinset_card_of_nodup h1]
    _ = (pages_data.map Prod.fst).toFinset.card := by rw [h2]
    _ = (pages_data.map Prod.fst).dedup.length := List.card_toFinset _

theorem build_utl_nil_iff (pages_data : List (String × List String)) :
    (buildLinkGraph pages_data).url_to_links = [] ↔ pages_data = [] := by
  constructor
  · intro h
    cases pages_data with
    | nil => rfl
    | cons p ps =>
      exfalso
      have hmem : p.1 ∈ dictKeys (buildLinkGraph (p :: ps)).url_to_links :=
        (build_keys_mem _ _).mpr (by simp)
      rw [h] at hmem
      simp [dictKeys] at hmem
  · rintro rfl
    rfl

/-- C7 counterexample: the reported `avg_links_per_page` is NOT the exact
quotient — with three crawled pages and one recorded edge the exact average
is 1/3 but the source reports `round(1/3, 1) = 0.3`, and `3/10 ≠ 1/3`. -/
theorem avg_links_rounding_counterexample :
    (analyze_internal_linking [("a", ["b"]), ("b", []), ("c", [])] "a").avg_links_per_page
      = 3 / 10 ∧
    ((analyze_internal_linking [("a", ["b"]), ("b", []), ("c", [])]
        "a").total_internal_links : ℚ) /
      ((([("a", ["b"]), ("b", []), ("c", [])] :
        List (String × List String)).map Prod.fst).dedup.length : ℚ) = 1 / 3 ∧
    (3 / 10 : ℚ) ≠ 1 / 3 := by
  refine ⟨?_, ?_, by norm_num⟩
  · have hfield : (analyze_internal_linking [("a", ["b"]), ("b", []), ("c", [])]
        "a").avg_links_per_page =
        pyRound1 (if (buildLinkGraph
            [("a", ["b"]), ("b", []), ("c", [])]).url_to_links.isEmpty then 0
          else ((analyze_internal_linking [("a", ["b"]), ("b", []), ("c", [])]
              "a").total_internal_links : ℚ) /
            ((buildLinkGraph
              [("a", ["b"]), ("b", []), ("c", [])]).url_to_links.length : ℚ)) := rfl
    rw [hfield, if_neg (by decide),
      show (analyze_internal_linking [("a", ["b"]), ("b", []), ("c", [])]
        "a").total_internal_links = 1 from by decide,
      show (buildLinkGraph
        [("a", ["b"]), ("b", []), ("c", [])]).url_to_links.length = 3 from by decide]
    unfold pyRound1 roundHalfEven
    rw [show (((1 : ℕ) : ℚ) / ((3 : ℕ) : ℚ)) * 10 = 10 / 3 from by push_cast; ring]
    rw [show ⌊(10 / 3 : ℚ)⌋ = 3 from by rw [Int.floor_eq_iff]; norm_num]
    norm_num
  · rw [show (analyze_internal_linking [("a", ["b"]), ("b", []), ("c", [])]
        "a").total_internal_links = 1 from by decide,
      show (([("a", ["b"]), ("b", []), ("c", [])] :
        List (String × List String)).map Prod.fst).dedup.length = 3 from by decide]
    norm_num

/-- C7 (amended): the reported average links-per-page is the total number of
recorded internal-link edges divided by the number of crawled pages holding
an outgoing-edge record — all distinct crawled URLs, pages that recorded
zero outgoing links still counted in the denominator — rounded to one
decimal place (Python's `round(·, 1)`, half-to-even). -/
theorem avg_links_per_page_rounded (pages_data : List (String × List String))
    (base_url : String) :
    (analyze_internal_linking pages_data base_url).avg_links_per_page =
      pyRound1 (if pages_data = [] then 0
      else ((analyze_internal_linking pages_data base_url).total_internal_links : ℚ) /
        ((pages_data.map Prod.fst).dedup.length : ℚ)) := by
  have hfield : (analyze_internal_linking pages_data base_url).avg_links_per_page =
      pyRound1 (if (buildLinkGraph pages_data).url_to_links.isEmpty then 0
      else ((analyze_internal_linking pages_data base_url).total_internal_links : ℚ) /
        ((buildLinkGraph pages_data).url_to_links.length : ℚ)) := rfl
  rw [hfield]
  by_cases hp : pages_data = []
  · subst hp
    rfl
  · rw [if_neg hp, if_neg (by
      simp only [List.isEmpty_iff]
      exact fun h => hp ((build_utl_nil_iff _).mp h)), build_utl_length]

/-! ### C4: correctness of the BFS click-depth computation -/

theorem mem_of_dictGet?_eq_some {A : Type} {m : List (String × A)} {u : String} {d : A}
    (h : dictGet? m u = some d) : (u, d) ∈ m := by
  unfold dictGet? at h
  cases hf : m.find? (fun p => p.1 = u) with
  | none =>
    rw [hf] at h
    exact absurd h (by simp)
  | some q =>
    rw [hf] at h
    simp only [Option.map_some', Option.some.injEq] at h
    have h1 : q.1 = u := by simpa using List.find?_some hf
    have h2 : q ∈ m := List.mem_of_find?_eq_some hf
    have : q = (u, d) := by
      cases q
      simp only [Prod.mk.injEq]
      exact ⟨h1, h⟩
    rwa [this] at h2

theorem dictGet?_isSome_iff {A : Type} (m : List (String × A)) (u : String) :
    (dictGet? m u).isSome ↔ u ∈ dictKeys m := by
  constructor
  · intro h
    rcases Option.isSome_iff_exists.mp h with ⟨d, hd⟩
    exact List.mem_map.mpr ⟨(u, d), mem_of_dictGet?_eq_some hd, rfl⟩
  · intro h
    rcases find?_key_mem h with ⟨q, _, hq, _⟩
    unfold dictGet?
    rw [hq]
    rfl

theorem dictGet?_eq_some_of_mem_nodup {A : Type} {m : List (String × A)} {u : String} {d : A}
    (hnd : (dictKeys m).Nodup) (h : (u, d) ∈ m) : dictGet? m u = some d := by
  induction m with
  | nil => simp at h
  | cons p rest ih =>
    rcases List.mem_cons.mp h with rfl | hmem
    · unfold dictGet?
      rw [List.find?_cons_of_pos _ (by simp)]
      rfl
    · simp only [dictKeys, List.map_cons, List.nodup_cons] at hnd
      have hp1 : p.1 ≠ u := by
        intro he
        have : u ∈ dictKeys rest := List.mem_map.mpr ⟨(u, d), hmem, rfl⟩
        exact hnd.1 (he ▸ this)
      unfold dictGet?
      rw [List.find?_cons_of_neg _ (by simpa using hp1)]
      exact ih hnd.2 hmem

theorem dictGet?_append_left {A : Type} {m : List (String × A)} (m' : List (String × A))
    {u : String} (h : u ∈ dictKeys m) : dictGet? (m ++ m') u = dictGet? m u := by
  unfold dictGet?
  rw [List.find?_append]
  rcases find?_key_mem h with ⟨q, _, hq, _⟩
  rw [hq]
  rfl

theorem dictGet?_append_right {A : Type} {m : List (String × A)} (m' : List (String × A))
    {u : String} (h : u ∉ dictKeys m) : dictGet? (m ++ m') u = dictGet? m' u := by
  unfold dictGet?
  rw [List.find?_append, find?_key_not_mem h]
  rfl

/-- Reachability in exactly `n` hops along the adjacency the BFS reads: an
edge `u → v` exists when `v ∈ url_to_links.get(u, set())` and `v ∈ all_urls`
(the guard on source line 104). -/
inductive Reach (utl : List (String × List String)) (all : List String) (base : String) :
    Nat → String → Prop
  | base : Reach utl all base 0 base
  | step {n : Nat} {u v : String} : Reach utl all base n u →
      v ∈ (dictGet? utl u).getD [] → v ∈ all → Reach utl all base (n + 1) v

/-- `n` is the BFS (shortest-path) distance of `u` from the base URL. -/
def Dist (utl : List (String × List String)) (all : List String) (base : String)
    (n : Nat) (u : String) : Prop :=
  Reach utl all base n u ∧ ∀ m, Reach utl all base m u → n ≤ m

/-- Loop invariant of the BFS in `calculate_click_depths`: recorded depths are
exact shortest distances, the visited set is the key set of the depth dict,
fully expanded vertices are exactly the visited ones that left the queue, and
queue depths are non-decreasing and span at most two consecutive values. -/
structure BFSInv (utl : List (String × List String)) (all : List String) (base : String)
    (queue : List String) (visited : Finset String)
    (depths : List (String × Int)) : Prop where
  keys_nodup : (dictKeys depths).Nodup
  visited_iff : ∀ u, u ∈ visited ↔ u ∈ dictKeys depths
  sound : ∀ u d, (u, d) ∈ depths → ∃ n : Nat, d = n ∧ Dist utl all base n u
  queue_sub : ∀ u ∈ queue, u ∈ visited
  queue_nodup : queue.Nodup
  expanded : ∀ u, u ∈ visited → u ∉ queue →
    ∀ v, v ∈ (dictGet? utl u).getD [] → v ∈ all → v ∈ visited
  base_mem : base ∈ visited
  sorted : queue.Pairwise (fun a b =>
    (dictGet? depths a).getD 0 ≤ (dictGet? depths b).getD 0)
  span : ∀ a ∈ queue, ∀ b ∈ queue,
    (dictGet? depths b).getD 0 ≤ (dictGet? depths a).getD 0 + 1

/-- Any path to an unvisited vertex yields a queued vertex whose recorded
distance does not exceed the path length. -/
theorem frontier_reach {utl : List (String × List String)} {all : List String}
    {base : String} {queue : List String} {visited : Finset String}
    {depths : List (String × Int)}
    (inv : BFSInv utl all base queue visited depths) :
    ∀ m v, Reach utl all base m v → v ∉ visited →
      ∃ u ∈ queue, ∃ n : Nat, dictGet? depths u = some (n : Int) ∧
        Dist utl all base n u ∧ n ≤ m := by
  intro m v h
  induction h with
  | base => intro hnv; exact absurd inv.base_mem hnv
  | @step n u v hr hlink hall ih =>
    intro hnv
    by_cases hu : u ∈ visited
    · by_cases huq : u ∈ queue
      · have hkey : u ∈ dictKeys depths := (inv.visited_iff u).mp hu
        rcases Option.isSome_iff_exists.mp ((dictGet?_isSome_iff depths u).mpr hkey)
          with ⟨d, hd⟩
        rcases inv.sound u d (mem_of_dictGet?_eq_some hd) with ⟨n', rfl, hdist⟩
        exact ⟨u, huq, n', hd, hdist, Nat.le_succ_of_le (hdist.2 n hr)⟩
      · exact absurd (inv.expanded u hu huq v hlink hall) hnv
    · rcases ih hu with ⟨w, hwq, n'', hw1, hw2, hw3⟩
      exact ⟨w, hwq, n'', hw1, hw2, Nat.le_succ_of_le hw3⟩

/-- The sublist of `links` that one BFS expansion newly visits, in order:
first occurrences of links that are unvisited and inside `all_urls`. -/
def freshList (all : List String) (vis : Finset String) : List String → List String
  | [] => []
  | u :: rest =>
    if u ∉ vis ∧ u ∈ all then u :: freshList all (insert u vis) rest
    else freshList all vis rest

/-- The BFS expansion fold, described by `freshList`: the fresh links are
appended to the queue, inserted into `visited`, and recorded with depth
`d + 1`. -/
theorem bfsFold_eq (all : List String) (d : Int) (links : List String) :
    ∀ (q : List String) (vis : Finset String) (dep : List (String × Int)),
      links.foldl (bfsStep all d) (q, vis, dep) =
        (q ++ freshList all vis links,
         vis ∪ (freshList all vis links).toFinset,
         dep ++ (freshList all vis links).map (fun u => (u, d + 1))) := by
  induction links with
  | nil =>
    intro q vis dep
    simp [freshList]
  | cons u rest ih =>
    intro q vis dep
    by_cases h : u ∉ vis ∧ u ∈ all
    · have hstep : bfsStep all d (q, vis, dep) u =
          (q ++ [u], insert u vis, dep ++ [(u, d + 1)]) := by
        unfold bfsStep
        rw [if_pos h]
      have hfresh : freshList all vis (u :: rest) = u :: freshList all (insert u vis) rest := by
        simp only [freshList]
        rw [if_pos h]
      rw [List.foldl_cons, hstep, ih, hfresh]
      simp only [List.toFinset_cons, List.map_cons, List.append_assoc,
        List.singleton_append, Finset.union_insert, Prod.mk.injEq]
      refine ⟨trivial, ?_, trivial⟩
      rw [Finset.insert_union]
    · have hstep : bfsStep all d (q, vis, dep) u = (q, vis, dep) := by
        unfold bfsStep
        rw [if_neg h]
      have hfresh : freshList all vis (u :: rest) = freshList all vis rest := by
        simp only [freshList]
        rw [if_neg h]
      rw [List.foldl_cons, hstep, ih, hfresh]

/-- The fresh links are nodup, and they are exactly the links that are
unvisited and inside `all_urls`. -/
theorem freshList_spec (all : List String) (links : List String) :
    ∀ vis : Finset String,
      (freshList all vis links).Nodup ∧
      (∀ u ∈ freshList all vis links, u ∉ vis ∧ u ∈ all ∧ u ∈ links) ∧
      (∀ u, u ∈ links → u ∈ all → u ∉ vis → u ∈ freshList all vis links) := by
  induction links with
  | nil => simp [freshList]
  | cons l rest ih =>
    intro vis
    unfold freshList
    by_cases h : l ∉ vis ∧ l ∈ all
    · rw [if_pos h]
      obtain ⟨ihn, ihm, ihc⟩ := ih (insert l vis)
      refine ⟨?_, ?_, ?_⟩
      · rw [List.nodup_cons]
        refine ⟨fun hl => ?_, ihn⟩
        exact (ihm l hl).1 (Finset.mem_insert_self l vis)
      · intro u hu
        rcases List.mem_cons.mp hu with rfl | hu'
        · exact ⟨h.1, h.2, List.mem_cons_self _ _⟩
        · obtain ⟨h1, h2, h3⟩ := ihm u hu'
          exact ⟨fun hv => h1 (Finset.mem_insert_of_mem hv), h2,
            List.mem_cons_of_mem _ h3⟩
      · intro u hu hall hv
        rcases List.mem_cons.mp hu with rfl | hu'
        · exact List.mem_cons_self _ _
        · by_cases hul : u = l
          · exact hul ▸ List.mem_cons_self _ _
          · exact List.mem_cons_of_mem _
              (ihc u hu' hall (fun hm => hv (by
                rcases Finset.mem_insert.mp hm with h' | h'
                · exact absurd h' hul
                · exact absurd h' (by simpa using hv) )))
    · rw [if_neg h]
      push_neg at h
      obtain ⟨ihn, ihm, ihc⟩ := ih vis
      refine ⟨ihn, ?_, ?_⟩
      · intro u hu
        obtain ⟨h1, h2, h3⟩ := ihm u hu
        exact ⟨h1, h2, List.mem_cons_of_mem _ h3⟩
      · intro u hu hall hv
        rcases List.mem_cons.mp hu with rfl | hu'
        · exact absurd (h hv) (by simpa using hall)
        · exact ihc u hu' hall hv

theorem dictGet?_cons_eq {A : Type} {p : String × A} {m : List (String × A)} {u : String}
    (h : p.1 = u) : dictGet? (p :: m) u = some p.2 := by
  unfold dictGet?
  rw [List.find?_cons_of_pos _ (by simpa using h)]
  rfl

theorem dictGet?_cons_ne {A : Type} {p : String × A} {m : List (String × A)} {u : String}
    (h : p.1 ≠ u) : dictGet? (p :: m) u = dictGet? m u := by
  unfold dictGet?
  rw [List.find?_cons_of_neg _ (by simpa using h)]

theorem dictGet?_constmap {c : Int} (fresh : List String) :
    ∀ u ∈ fresh, dictGet? (fresh.map (fun x => (x, c))) u = some c := by
  induction fresh with
  | nil => simp
  | cons f rest ih =>
    intro u hu
    rw [List.map_cons]
    by_cases hf : f = u
    · rw [dictGet?_cons_eq hf]
    · rcases List.mem_cons.mp hu with rfl | hu'
      · exact absurd rfl hf
      · rw [dictGet?_cons_ne hf]
        exact ih u hu'

/-- One iteration of the BFS loop preserves the invariant: popping the head
`current` and expanding its outgoing links into the fresh suffix keeps all
recorded depths equal to shortest distances. -/
theorem bfs_inv_step {utl : List (String × List String)} {all : List String} {base : String}
    {current : String} {queue : List String} {visited : Finset String}
    {depths : List (String × Int)}
    (inv : BFSInv utl all base (current :: queue) visited depths) :
    BFSInv utl all base
      (queue ++ freshList all visited ((dictGet? utl current).getD []))
      (visited ∪ (freshList all visited ((dictGet? utl current).getD [])).toFinset)
      (depths ++ (freshList all visited ((dictGet? utl current).getD [])).map
        (fun u => (u, (dictGet? depths current).getD 0 + 1))) := by
  have hcv : current ∈ visited := inv.queue_sub current (List.mem_cons_self _ _)
  have hck : current ∈ dictKeys depths := (inv.visited_iff current).mp hcv
  rcases Option.isSome_iff_exists.mp ((dictGet?_isSome_iff depths current).mpr hck)
    with ⟨dc, hdc⟩
  rcases inv.sound current dc (mem_of_dictGet?_eq_some hdc) with ⟨nc, hdceq, hdistc⟩
  have hdval : (dictGet? depths current).getD 0 = (nc : Int) := by
    rw [hdc, hdceq]
    rfl
  obtain ⟨hfn, hfm, hfc⟩ := freshList_spec all ((dictGet? utl current).getD []) visited
  set links := (dictGet? utl current).getD [] with hlinksdef
  set fresh := freshList all visited links with hfreshdef
  have hfreshNotVis : ∀ u ∈ fresh, u ∉ visited := fun u hu => (hfm u hu).1
  have hfreshAll : ∀ u ∈ fresh, u ∈ all := fun u hu => (hfm u hu).2.1
  have hfreshLinks : ∀ u ∈ fresh, u ∈ links := fun u hu => (hfm u hu).2.2
  have hfreshKeys : ∀ u ∈ fresh, u ∉ dictKeys depths :=
    fun u hu hk => hfreshNotVis u hu ((inv.visited_iff u).mpr hk)
  set c : Int := (dictGet? depths current).getD 0 + 1 with hcdef
  have hc : c = ((nc + 1 : Nat) : Int) := by
    rw [hcdef, hdval]
    push_cast
    ring
  set D' : List (String × Int) := depths ++ fresh.map (fun u => (u, c)) with hD'
  have hkeysEq : dictKeys D' = dictKeys depths ++ fresh := by
    rw [hD']
    unfold dictKeys
    rw [List.map_append, List.map_map]
    congr 1
    exact List.map_congr_left (fun a _ => rfl) |>.trans (List.map_id _)
  have hvalOld : ∀ a, a ∈ dictKeys depths → dictGet? D' a = dictGet? depths a :=
    fun a ha => dictGet?_append_left _ ha
  have hvalQueue : ∀ a ∈ current :: queue, dictGet? D' a = dictGet? depths a :=
    fun a ha => hvalOld a ((inv.visited_iff a).mp (inv.queue_sub a ha))
  have hvalFresh : ∀ a ∈ fresh, dictGet? D' a = some c := by
    intro a ha
    rw [hD', dictGet?_append_right _ (hfreshKeys a ha)]
    exact dictGet?_constmap fresh a ha
  -- the head of the queue carries the minimal recorded depth
  have hqmin : ∀ w ∈ current :: queue, ∀ nw : Nat,
      dictGet? depths w = some (nw : Int) → nc ≤ nw := by
    intro w hwq nw hdw
    rcases List.mem_cons.mp hwq with rfl | hwq'
    · rw [hdc] at hdw
      have : dc = (nw : Int) := by injection hdw
      rw [hdceq] at this
      exact le_of_eq (by exact_mod_cast this)
    · have hp := (List.pairwise_cons.mp inv.sorted).1 w hwq'
      rw [hdval, hdw] at hp
      simp only [Option.getD_some] at hp
      exact_mod_cast hp
  -- minimality of nc + 1 for every freshly discovered vertex
  have hmin : ∀ u ∈ fresh, ∀ m, Reach utl all base m u → nc + 1 ≤ m := by
    intro u hu m hm
    cases hm with
    | base => exact absurd inv.base_mem (hfreshNotVis _ hu)
    | step hr hlink hall =>
      rename_i m' w
      by_cases hw : w ∈ visited
      · by_cases hwq : w ∈ current :: queue
        · have hwk := (inv.visited_iff w).mp hw
          rcases Option.isSome_iff_exists.mp ((dictGet?_isSome_iff depths w).mpr hwk)
            with ⟨dw, hdw⟩
          rcases inv.sound w dw (mem_of_dictGet?_eq_some hdw) with ⟨nw, hdweq, hdistw⟩
          have h1 : nw ≤ m' := hdistw.2 _ hr
          have h2 : nc ≤ nw := hqmin w hwq nw (hdweq ▸ hdw)
          omega
        · exact absurd (inv.expanded w hw hwq u hlink hall) (hfreshNotVis u hu)
      · rcases frontier_reach inv m' w hr hw with ⟨x, hxq, nx, hx1, hx2, hx3⟩
        have h2 : nc ≤ nx := hqmin x hxq nx hx1
        omega
  have hsoundFresh : ∀ u ∈ fresh, Dist utl all base (nc + 1) u := by
    intro u hu
    exact ⟨Reach.step hdistc.1 (hfreshLinks u hu) (hfreshAll u hu), hmin u hu⟩
  refine
    { keys_nodup := ?_
      visited_iff := ?_
      sound := ?_
      queue_sub := ?_
      queue_nodup := ?_
      expanded := ?_
      base_mem := Finset.mem_union_left _ inv.base_mem
      sorted := ?_
      span := ?_ }
  · rw [hkeysEq, List.nodup_append]
    exact ⟨inv.keys_nodup, hfn, fun a ha haf => hfreshKeys a haf ha⟩
  · intro u
    rw [hkeysEq]
    simp only [Finset.mem_union, List.mem_toFinset, List.mem_append]
    rw [inv.visited_iff u]
  · intro u d hmem
    rcases List.mem_append.mp hmem with hold | hnew
    · exact inv.sound u d hold
    · rcases List.mem_map.mp hnew with ⟨x, hx, heq⟩
      have hux : x = u := congrArg Prod.fst heq
      have hdc2 : d = c := (congrArg Prod.snd heq).symm
      subst hux
      exact ⟨nc + 1, by rw [hdc2, hc], hsoundFresh x hx⟩
  · intro u hu
    rcases List.mem_append.mp hu with h | h
    · exact Finset.mem_union_left _ (inv.queue_sub u (List.mem_cons_of_mem _ h))
    · exact Finset.mem_union_right _ (List.mem_toFinset.mpr h)
  · rw [List.nodup_append]
    refine ⟨(List.nodup_cons.mp inv.queue_nodup).2, hfn, ?_⟩
    intro a ha haf
    exact hfreshNotVis a haf (inv.queue_sub a (List.mem_cons_of_mem _ ha))
  · intro u hu hunq v hvl hva
    rcases Finset.mem_union.mp hu with huv | huf
    · by_cases huc : u = current
      · subst huc
        by_cases hvv : v ∈ visited
        · exact Finset.mem_union_left _ hvv
        · exact Finset.mem_union_right _ (List.mem_toFinset.mpr (hfc v hvl hva hvv))
      · have hnq : u ∉ current :: queue := by
          intro hq
          rcases List.mem_cons.mp hq with rfl | hq'
          · exact huc rfl
          · exact hunq (List.mem_append.mpr (Or.inl hq'))
        exact Finset.mem_union_left _ (inv.expanded u huv hnq v hvl hva)
    · exact absurd (List.mem_append.mpr (Or.inr (List.mem_toFinset.mp huf))) hunq
  · rw [List.pairwise_append]
    refine ⟨?_, ?_, ?_⟩
    · refine ((List.pairwise_cons.mp inv.sorted).2).imp_of_mem ?_
      intro a b ha hb hab
      rw [hvalQueue a (List.mem_cons_of_mem _ ha), hvalQueue b (List.mem_cons_of_mem _ hb)]
      exact hab
    · refine List.pairwise_of_forall_mem_list ?_
      intro a ha b hb
      rw [hvalFresh a ha, hvalFresh b hb]
    · intro a ha b hb
      rw [hvalQueue a (List.mem_cons_of_mem _ ha), hvalFresh b hb]
      simp only [Option.getD_some]
      have hsp := inv.span current (List.mem_cons_self _ _) a (List.mem_cons_of_mem _ ha)
      rw [hdval] at hsp
      rw [hcdef, hdval]
      exact hsp
  · intro a ha b hb
    have hlow : (nc : Int) ≤ (dictGet? D' a).getD 0 := by
      rcases List.mem_append.mp ha with h | h
      · rw [hvalQueue a (List.mem_cons_of_mem _ h)]
        have hp := (List.pairwise_cons.mp inv.sorted).1 a h
        rw [hdval] at hp
        exact hp
      · rw [hvalFresh a h]
        simp only [Option.getD_some]
        rw [hc]
        push_cast
        omega
    have hhigh : (dictGet? D' b).getD 0 ≤ (nc : Int) + 1 := by
      rcases List.mem_append.mp hb with h | h
      · rw [hvalQueue b (List.mem_cons_of_mem _ h)]
        have := inv.span current (List.mem_cons_self _ _) b (List.mem_cons_of_mem _ h)
        rw [hdval] at this
        exact this
      · rw [hvalFresh b h]
        simp only [Option.getD_some]
        rw [hc]
        push_cast
        omega
    omega

/-- Running the BFS loop from any invariant state yields a depth dict with
nodup keys whose entries are exact shortest distances, preserving existing
entries, and covering every reachable vertex. -/
theorem bfsLoop_correct (utl : List (String × List String)) (all : List String)
    (base : String) (queue : List String) (visited : Finset String)
    (depths : List (String × Int)) :
    BFSInv utl all base queue visited depths →
    (dictKeys (bfsLoop utl all queue visited depths)).Nodup ∧
    (∀ u d, (u, d) ∈ bfsLoop utl all queue visited depths →
      ∃ n : Nat, d = (n : Int) ∧ Dist utl all base n u) ∧
    (∀ u d, (u, d) ∈ depths → (u, d) ∈ bfsLoop utl all queue visited depths) ∧
    (∀ m v, Reach utl all base m v →
      v ∈ dictKeys (bfsLoop utl all queue visited depths)) := by
  induction queue, visited, depths using bfsLoop.induct utl all with
  | case1 visited depths =>
    intro inv
    simp only [bfsLoop]
    refine ⟨inv.keys_nodup, fun u d h => inv.sound u d h, fun _ _ h => h, ?_⟩
    intro m v hr
    by_cases hv : v ∈ visited
    · exact (inv.visited_iff v).mp hv
    · rcases frontier_reach inv m v hr hv with ⟨x, hx, _⟩
      exact absurd hx (List.not_mem_nil _)
  | case2 current queue visited depths cd og s ih =>
    intro inv
    have hs : s = List.foldl (bfsStep all cd) (queue, visited, depths) og := rfl
    have hcd : cd = (dictGet? depths current).getD 0 := rfl
    have hog : og = (dictGet? utl current).getD [] := rfl
    rw [hs, hcd, hog, bfsFold_eq] at ih
    dsimp only at ih
    simp only [bfsLoop, bfsFold_eq]
    obtain ⟨h1, h2, h3, h4⟩ := ih (bfs_inv_step inv)
    exact ⟨h1, h2, fun u d h => h3 u d (List.mem_append.mpr (Or.inl h)), h4⟩

/-- The initial BFS state `([base], {base}, {base: 0})` satisfies the
invariant. -/
theorem bfs_init_inv (utl : List (String × List String)) (all : List String)
    (base : String) : BFSInv utl all base [base] {base} [(base, 0)] := by
  refine
    { keys_nodup := by simp [dictKeys]
      visited_iff := by intro u; simp [dictKeys]
      sound := ?_
      queue_sub := by simp
      queue_nodup := by simp
      expanded := ?_
      base_mem := by simp
      sorted := by simp
      span := ?_ }
  · intro u d h
    simp only [List.mem_singleton, Prod.mk.injEq] at h
    refine ⟨0, by simp [h.2], ?_⟩
    rw [← h.1]
    exact ⟨Reach.base, fun m _ => Nat.zero_le m⟩
  · intro u hu hq
    simp only [Finset.mem_singleton] at hu
    exact absurd (by simp [hu]) hq
  · intro a ha b hb
    simp only [List.mem_singleton] at ha hb
    subst ha
    subst hb
    simp

/-- The `-1` completion pass of `calculate_click_depths` (source lines
110–112): existing entries are preserved, every URL of `all_urls` ends up a
key, and any new entry has value `-1`. -/
theorem completionPass (all : List String) :
    ∀ (dep : List (String × Int)), (dictKeys dep).Nodup →
      (dictKeys (all.foldl (fun dep url =>
        if url ∈ dictKeys dep then dep else dep ++ [(url, -1)]) dep)).Nodup ∧
      (∀ u d, (u, d) ∈ dep → (u, d) ∈ all.foldl (fun dep url =>
        if url ∈ dictKeys dep then dep else dep ++ [(url, -1)]) dep) ∧
      (∀ u, u ∈ dictKeys (all.foldl (fun dep url =>
        if url ∈ dictKeys dep then dep else dep ++ [(url, -1)]) dep) ↔
        u ∈ dictKeys dep ∨ u ∈ all) ∧
      (∀ u d, (u, d) ∈ all.foldl (fun dep url =>
        if url ∈ dictKeys dep then dep else dep ++ [(url, -1)]) dep →
        (u, d) ∈ dep ∨ d = -1) := by
  induction all with
  | nil =>
    intro dep h
    exact ⟨h, fun _ _ h => h, fun u => by simp, fun u d h => Or.inl h⟩
  | cons a rest ih =>
    intro dep hnd
    rw [List.foldl_cons]
    by_cases ha : a ∈ dictKeys dep
    · rw [if_pos ha]
      obtain ⟨h1, h2, h3, h4⟩ := ih dep hnd
      refine ⟨h1, h2, ?_, h4⟩
      intro u
      rw [h3]
      simp only [List.mem_cons]
      constructor
      · rintro (h | h)
        · exact Or.inl h
        · exact Or.inr (Or.inr h)
      · rintro (h | rfl | h)
        · exact Or.inl h
        · exact Or.inl ha
        · exact Or.inr h
    · rw [if_neg ha]
      have hnd' : (dictKeys (dep ++ [(a, -1)])).Nodup := by
        unfold dictKeys
        rw [List.map_append, List.nodup_append]
        refine ⟨hnd, by simp, ?_⟩
        intro b hb
        simp only [List.map_cons, List.map_nil, List.mem_singleton]
        intro he
        exact ha (he ▸ hb)
      obtain ⟨h1, h2, h3, h4⟩ := ih (dep ++ [(a, -1)]) hnd'
      refine ⟨h1, ?_, ?_, ?_⟩
      · exact fun u d h => h2 u d (List.mem_append.mpr (Or.inl h))
      · intro u
        rw [h3]
        unfold dictKeys
        rw [List.map_append]
        simp only [List.mem_append, List.mem_cons, List.map_cons, List.map_nil,
          List.not_mem_nil, or_false]
        tauto
      · intro u d h
        rcases h4 u d h with hmem | hval
        · rcases List.mem_append.mp hmem with h' | h'
          · exact Or.inl h'
          · simp only [List.mem_singleton, Prod.mk.injEq] at h'
            exact Or.inr h'.2
        · exact Or.inr hval

/-- The click-depth map as the link-graph analyzer computes it
(`analyze_internal_linking` line 40: `calculate_click_depths(base_url,
url_to_links, all_urls)` over the built graph). -/
def clickDepthsOf (pages_data : List (String × List String)) (base_url : String) :
    List (String × Int) :=
  calculate_click_depths base_url (buildLinkGraph pages_data).url_to_links
    (buildLinkGraph pages_data).all_urls

/-- C4: the click-depth map assigns 0 to the root URL, assigns to every URL of
the graph reachable from the root its exact breadth-first (shortest-path)
distance in link hops, and assigns −1 to every URL of the graph that is not
reachable from the root. -/
theorem calculate_click_depths_bfs (pages_data : List (String × List String))
    (base_url : String) :
    dictGet? (clickDepthsOf pages_data base_url) base_url = some 0 ∧
    (∀ u, u ∈ (buildLinkGraph pages_data).all_urls →
      ((∃ n, Reach (buildLinkGraph pages_data).url_to_links
          (buildLinkGraph pages_data).all_urls base_url n u) →
        ∃ d : Int, dictGet? (clickDepthsOf pages_data base_url) u = some d ∧ 0 ≤ d ∧
          Reach (buildLinkGraph pages_data).url_to_links
            (buildLinkGraph pages_data).all_urls base_url d.toNat u ∧
          ∀ m, Reach (buildLinkGraph pages_data).url_to_links
            (buildLinkGraph pages_data).all_urls base_url m u → d ≤ (m : Int)) ∧
      ((¬ ∃ n, Reach (buildLinkGraph pages_data).url_to_links
          (buildLinkGraph pages_data).all_urls base_url n u) →
        dictGet? (clickDepthsOf pages_data base_url) u = some (-1))) := by
  set utl := (buildLinkGraph pages_data).url_to_links with hutl
  set all := (buildLinkGraph pages_data).all_urls with hall
  obtain ⟨hB1, hB2, hB3, hB4⟩ :=
    bfsLoop_correct utl all base_url [base_url] {base_url} [(base_url, 0)]
      (bfs_init_inv utl all base_url)
  set B := bfsLoop utl all [base_url] {base_url} [(base_url, 0)] with hBdef
  obtain ⟨hC1, hC2, hC3, hC4⟩ := completionPass all B hB1
  have hcalc : clickDepthsOf pages_data base_url =
      all.foldl (fun dep url =>
        if url ∈ dictKeys dep then dep else dep ++ [(url, -1)]) B := rfl
  constructor
  · rw [hcalc]
    exact dictGet?_eq_some_of_mem_nodup hC1 (hC2 _ _ (hB3 _ _ (by simp)))
  · intro u hu
    constructor
    · rintro ⟨n, hr⟩
      have hkey : u ∈ dictKeys B := hB4 n u hr
      rcases Option.isSome_iff_exists.mp ((dictGet?_isSome_iff B u).mpr hkey) with ⟨d, hd⟩
      rcases hB2 u d (mem_of_dictGet?_eq_some hd) with ⟨n', rfl, hdist⟩
      refine ⟨(n' : Int), ?_, ?_, ?_, ?_⟩
      · rw [hcalc]
        exact dictGet?_eq_some_of_mem_nodup hC1 (hC2 _ _ (mem_of_dictGet?_eq_some hd))
      · exact_mod_cast Nat.zero_le n'
      · rw [Int.toNat_natCast]
        exact hdist.1
      · intro m hm
        exact_mod_cast hdist.2 m hm
    · intro hnr
      have hnokey : u ∉ dictKeys B := by
        intro hk
        rcases Option.isSome_iff_exists.mp ((dictGet?_isSome_iff B u).mpr hk) with ⟨d, hd⟩
        rcases hB2 u d (mem_of_dictGet?_eq_some hd) with ⟨n', _, hdist⟩
        exact hnr ⟨n', hdist.1⟩
      have hkeyR : u ∈ dictKeys (all.foldl (fun dep url =>
          if url ∈ dictKeys dep then dep else dep ++ [(url, -1)]) B) :=
        (hC3 u).mpr (Or.inr hu)
      rcases Option.isSome_iff_exists.mp ((dictGet?_isSome_iff _ u).mpr hkeyR) with ⟨d, hd⟩
      have hmem := mem_of_dictGet?_eq_some hd
      rcases hC4 u d hmem with hinB | hval
      · exact absurd (List.mem_map.mpr ⟨(u, d), hinB, rfl⟩) hnokey
      · rw [hcalc, hd, hval]

/-- The spec's cycle scenario r → a → b → r, plus one isolated page z. -/
def c4pages : List (String × List String) :=
  [("r", ["a"]), ("a", ["b"]), ("b", ["r"]), ("z", [])]

/-- Witness for C4: on the cycle r → a → b → r with isolated z, the root gets
depth 0, "b" gets its shortest distance (2), and "z" gets −1. -/
theorem calculate_click_depths_bfs_witness :
    dictGet? (clickDepthsOf c4pages "r") "r" = some 0 ∧
    (∃ d : Int, dictGet? (clickDepthsOf c4pages "r") "b" = some d ∧ 0 ≤ d ∧
      Reach (buildLinkGraph c4pages).url_to_links (buildLinkGraph c4pages).all_urls "r"
        d.toNat "b" ∧
      ∀ m, Reach (buildLinkGraph c4pages).url_to_links (buildLinkGraph c4pages).all_urls "r"
        m "b" → d ≤ (m : Int)) ∧
    dictGet? (clickDepthsOf c4pages "r") "z" = some (-1) := by
  obtain ⟨h0, hAll⟩ := calculate_click_depths_bfs c4pages "r"
  refine ⟨h0, ?_, ?_⟩
  · refine (hAll "b" (by decide)).1 ⟨2, ?_⟩
    exact @Reach.step _ _ _ 1 "a" "b"
      (@Reach.step _ _ _ 0 "r" "a" Reach.base (by decide) (by decide))
      (by decide) (by decide)
  · refine (hAll "z" (by decide)).2 ?_
    rintro ⟨n, h⟩
    have hclosed : ∀ (n : Nat) (v : String),
        Reach (buildLinkGraph c4pages).url_to_links (buildLinkGraph c4pages).all_urls "r" n v →
        v ∈ ["r", "a", "b"] := by
      intro n v hv
      induction hv with
      | base => decide
      | step hr hlink hall ihv =>
        rename_i n2 w v2
        simp only [List.mem_cons, List.not_mem_nil, or_false] at ihv
        rcases ihv with rfl | rfl | rfl
        · rw [show (dictGet? (buildLinkGraph c4pages).url_to_links "r").getD [] = ["a"]
            from by decide] at hlink
          simp only [List.mem_singleton] at hlink
          subst hlink
          decide
        · rw [show (dictGet? (buildLinkGraph c4pages).url_to_links "a").getD [] = ["b"]
            from by decide] at hlink
          simp only [List.mem_singleton] at hlink
          subst hlink
          decide
        · rw [show (dictGet? (buildLinkGraph c4pages).url_to_links "b").getD [] = ["r"]
            from by decide] at hlink
          simp only [List.mem_singleton] at hlink
          subst hlink
          decide
    exact absurd (hclosed n "z" h) (by decide)

/-! ## Content quality (backend/utils/content_analyzer.py, lines 197–230) -/

/-- Python `str.split()` with no argument: the maximal runs of
non-whitespace. -/
def splitWsFuel : Nat → List Char → List (List Char)
  | 0, _ => []
  | _ + 1, [] => []
  | fuel + 1, c :: rest =>
    if c.isWhitespace then splitWsFuel fuel rest
    else (c :: rest.takeWhile (fun x => !x.isWhitespace)) ::
      splitWsFuel fuel (rest.dropWhile (fun x => !x.isWhitespace))

def pySplitWs (s : String) : List String :=
  (splitWsFuel s.data.length s.data).map String.mk

/-- Python `str.split('\n\n')`: split at each leftmost non-overlapping
occurrence of a blank line separator. -/
def splitParagraphsFuel : Nat → List Char → List (List Char)
  | 0, _ => [[]]
  | _ + 1, [] => [[]]
  | fuel + 1, '\n' :: '\n' :: rest => [] :: splitParagraphsFuel fuel rest
  | fuel + 1, c :: rest =>
    match splitParagraphsFuel fuel rest with
    | [] => [[c]]
    | p :: ps => (c :: p) :: ps

/-- The fields of `KeywordDensity` that `analyze_content_quality` reads. -/
structure KeywordDensity where
  keyword : String
  density_percent : ℚ
deriving Repr, DecidableEq

/-- `ContentQuality` from models.py. -/
structure ContentQuality where
  thin_content : Bool
  duplicate_content_risk : Bool := false
  keyword_stuffing_detected : Bool
  large_paragraphs : List String
  missing_subheadings : Bool
deriving Repr, DecidableEq

/-- `analyze_content_quality(text, headings, existing_keywords)`.  Headings
are (level, text) pairs of the page's heading structure. -/
def analyze_content_quality (text : String) (headings : List (Nat × String) := [])
    (existing_keywords : List KeywordDensity := []) : ContentQuality :=
  let clean_text := stripTags " " text
  let words := pySplitWs clean_text
  let word_count := words.length
  let paragraphs := ((splitParagraphsFuel clean_text.data.length clean_text.data).map
    trimChars).filter (· ≠ [])
  let large_paragraphs := paragraphs.filter
    (fun par => 150 < (splitWsFuel par.length par).length)
  let h2_count := (headings.filter (fun h => h.1 = 2)).length
  { thin_content := decide (word_count < 300)
    duplicate_content_risk := false
    keyword_stuffing_detected := existing_keywords.any (fun kw => 5 < kw.density_percent)
    large_paragraphs := (large_paragraphs.take 3).map
      (fun par => String.mk (par.take 100) ++ "...")
    missing_subheadings := decide (300 < word_count ∧ h2_count = 0) }

/-! ## The crawler (backend/tasks/crawler.py) -/

/-- The per-image facts `crawl_page` reads (from `ImageAnalysis` in
models.py); image extraction itself (`analyze_images`) is soup-based and
external. -/
structure ImageInfo where
  url : String
  alt_text : Option String := none
  has_modern_format : Bool := false
deriving Repr, DecidableEq

/-- The parsed-document view of a successfully fetched page.  Everything the
external collaborators produce — HTTP status and headers, soup-extracted
metadata, the resolved internal/external link lists (urljoin/urldefrag/
netloc filtering), and the outputs of the external schema and accessibility
analyzers — is carried as input data; `crawl_page`'s own logic over this view
is embedded below. -/
structure ParsedPage where
  statusCode : Nat
  headers : List (String × String) := []
  contentText : String := ""
  title : Option String := none
  metaDesc : Option String := none
  h1s : List String := []                -- text of each h1 element, in order
  headings : List (Nat × String) := []   -- heading_structure: (level, text)
  images : List ImageInfo := []
  internalLinks : List String := []
  externalLinks : List String := []
  externalNofollow : List String := []
  missingSchemas : List String := []     -- get_missing_recommended_schemas output
  accessibilityCritical : Nat := 0
  accessibilitySerious : Nat := 0
deriving Repr, DecidableEq

/-- `PageData` from models.py, restricted to the fields with embedded logic
(`url` and `internal_links` feed the link-graph analyzer; `status_code` is
what the failure claims are about; `readability` — `None` on the except
branch, models.py line 276 — gates the accessibility summary's division in
`crawl_website`).  Defaults mirror models.py. -/
structure PageData where
  url : String
  status_code : Nat
  title : Option String := none
  title_length : Nat := 0
  meta_description : Option String := none
  meta_description_length : Nat := 0
  h1 : Option String := none
  h1_count : Nat := 0
  internal_links : List String := []
  external_links : List String := []
  external_links_nofollow : List String := []
  word_count : Nat := 0
  readability : Option ReadabilityScore := none
deriving Repr, DecidableEq

/-- Source lines 95–101. -/
def httpIssues (url : String) (statusCode : Nat) : List PageIssue :=
  if 400 ≤ statusCode then
    [⟨url, "http_error", "error", "HTTP " ++ toString statusCode ++ " error", none⟩]
  else []

/-- Source lines 147–160: `soup.find("h1")` is `None` iff there is no h1
element, so the missing branch fires exactly on an empty h1 list. -/
def h1Issues (url : String) (h1s : List String) : List PageIssue :=
  if h1s = [] then
    [⟨url, "missing_h1", "error", "Page is missing H1 tag", none⟩]
  else if 1 < h1s.length then
    [⟨url, "multiple_h1", "warning",
      "Page has " ++ toString h1s.length ++ " H1 tags (should be 1)", none⟩]
  else []

/-- Source lines 163–176 (`if not meta_desc`: `None` and `""` are falsy). -/
def metaIssues (url : String) (metaDesc : Option String) : List PageIssue :=
  if ¬ truthy metaDesc then
    [⟨url, "missing_meta_description", "warning", "Page is missing meta description", none⟩]
  else if 160 < (metaDesc.getD "").length then
    [⟨url, "meta_description_too_long", "info",
      "Meta description is " ++ toString (metaDesc.getD "").length ++
        " chars (recommended < 160)", none⟩]
  else []

/-- Source lines 179–193. -/
def titleIssues (url : String) (title : Option String) : List PageIssue :=
  if truthy title then
    if (title.getD "").length < 30 then
      [⟨url, "title_too_short", "info",
        "Title is " ++ toString (title.getD "").length ++ " chars (recommended 50-60)", none⟩]
    else if 60 < (title.getD "").length then
      [⟨url, "title_too_long", "info",
        "Title is " ++ toString (title.getD "").length ++
          " chars (may be truncated in SERP)", none⟩]
    else []
  else []

/-- Source lines 196–205: one issue per alt-less image, first three only. -/
def altTextIssues (url : String) (images : List ImageInfo) : List PageIssue :=
  ((images.filter (fun img => ¬ truthy img.alt_text)).map (fun img => img.url)).take 3
    |>.map (fun img =>
      (⟨url, "missing_alt_text", "warning",
        "Image missing alt text: " ++ String.mk (img.data.take 50) ++ "...", none⟩ : PageIssue))

/-- Source lines 208–215: `len(non_modern) > len(images) * 0.5` is exact in
binary floating point, hence equivalent to the integer comparison below. -/
def imageFormatIssues (url : String) (images : List ImageInfo) : List PageIssue :=
  let non_modern := images.filter (fun img => ¬ img.has_modern_format)
  if images.length < 2 * non_modern.length then
    [⟨url, "non_optimized_images", "info",
      toString non_modern.length ++ " images not using modern formats (WebP/AVIF)", none⟩]
  else []

/-- Source lines 248–262. -/
def contentIssues (url : String) (cq : ContentQuality) (word_count : Nat) : List PageIssue :=
  (if cq.thin_content then
    [⟨url, "thin_content", "warning",
      "Content may be too short (" ++ toString word_count ++ " words)", none⟩]
  else []) ++
  (if cq.missing_subheadings ∧ 500 < word_count then
    [⟨url, "missing_subheadings", "info", "Long content without H2 subheadings", none⟩]
  else [])

/-- Source lines 277–283. -/
def schemaIssues (url : String) (missingSchemas : List String) : List PageIssue :=
  if missingSchemas ≠ [] then
    [⟨url, "missing_structured_data", "info",
      "Consider adding: " ++ String.intercalate ", " (missingSchemas.take 2), none⟩]
  else []

/-- Source lines 288–295. -/
def securityIssues (url : String) (sh : SecurityHeaders) : List PageIssue :=
  if sh.score < 50 then
    [⟨url, "security_headers", "warning",
      "Security headers score: " ++ toString sh.score ++ "/100",
      some sh.missing_headers⟩]
  else []

/-- Source lines 298–314. -/
def accessIssues (url : String) (critical serious : Nat) : List PageIssue :=
  (if 0 < critical then
    [⟨url, "accessibility_critical", "error",
      toString critical ++ " critical accessibility issues", none⟩]
  else []) ++
  (if 0 < serious then
    [⟨url, "accessibility_serious", "warning",
      toString serious ++ " serious accessibility issues", none⟩]
  else [])

/-- The issues accumulated before the readability call (source lines
95–215), in source order. -/
def preIssues (url : String) (p : ParsedPage) : List PageIssue :=
  httpIssues url p.statusCode ++ h1Issues url p.h1s ++ metaIssues url p.metaDesc ++
  titleIssues url p.title ++ altTextIssues url p.images ++ imageFormatIssues url p.images

/-- The issues appended after the readability call (source lines 243–314),
in source order. -/
def postIssues (url : String) (p : ParsedPage) (readability : ReadabilityScore) :
    List PageIssue :=
  contentIssues url (analyze_content_quality p.contentText p.headings [])
    readability.word_count ++
  schemaIssues url p.missingSchemas ++
  securityIssues url (analyze_security_headers p.headers) ++
  accessIssues url p.accessibilityCritical p.accessibilitySerious

/-- The `try` body of `crawl_page` (source lines 82–350) over the parsed
view.  The only modelled fallible step is `calculate_readability` (line 243);
it is provably total (`calculate_readability_safe`), so the `.error` branch,
which carries the issues accumulated before the raise, is dead code. -/
def crawlPageTry (url : String) (p : ParsedPage) :
    Except (List PageIssue) (PageData × List String × List PageIssue) :=
  match calculate_readability p.contentText (p.title.getD "") ((p.h1s.head?).getD "") with
  | none => .error (preIssues url p)
  | some readability =>
    let page_data : PageData :=
      { url := url
        status_code := p.statusCode
        title := p.title
        title_length := if truthy p.title then (p.title.getD "").length else 0
        meta_description := p.metaDesc
        meta_description_length := if truthy p.metaDesc then (p.metaDesc.getD "").length else 0
        h1 := p.h1s.head?
        h1_count := p.h1s.length
        internal_links := p.internalLinks.dedup   -- list(set(internal_links))
        external_links := p.externalLinks.dedup
        external_links_nofollow := p.externalNofollow.dedup
        word_count := readability.word_count
        readability := some readability }
    .ok (page_data, p.internalLinks.dedup, preIssues url p ++ postIssues url p readability)

/-- The `crawl_error` issue of the except branch (source lines 353–358); the
message `str(e)` comes from the runtime exception and is not modelled. -/
def crawlErrorIssue (url : String) : PageIssue :=
  { url := url, issue_type := "crawl_error", severity := "error", message := "" }

/-- `crawl_page(page, url, base_domain, ...)`: fetching (`page.goto`) and
parsing are external, so a failed fetch/parse is modelled by the oracle
returning `none`; any exception in the try body lands in the except branch
(source lines 352–363), which returns a status-0 `PageData`, no links, and
the accumulated issues with one `crawl_error` appended. -/
def crawl_page (url : String) (fetched : Option ParsedPage) :
    PageData × List String × List PageIssue :=
  match fetched with
  | none => ({ url := url, status_code := 0 }, [], [crawlErrorIssue url])
  | some p =>
    match crawlPageTry url p with
    | .ok r => r
    | .error issuesSoFar =>
      ({ url := url, status_code := 0 }, [], issuesSoFar ++ [crawlErrorIssue url])

/-- `CrawlStatus` from models.py. -/
inductive CrawlStatus where
  | pending
  | in_progress
  | completed
  | failed
deriving Repr, DecidableEq

/-- The `accessibility_summary` dict built at source lines 434–439. -/
structure AccessibilitySummary where
  avg_score : ℚ
  total_issues : Nat
  pages_with_critical : Nat
deriving Repr, DecidableEq

/-- `t.startswith("accessibility_")`. -/
def isAccessibilityType (t : String) : Bool :=
  "accessibility_".data.isPrefixOf t.data

/-- The accessibility summary of `crawl_website` (source lines 434–439).
The `avg_score` division is guarded only by `if pages else 0` (pages
nonempty), NOT by its own denominator `len([p for p in pages if
p.readability])`: when the page list is nonempty but no page carries a
readability score — every crawl failed, so each record's `readability` is
`None` — the division raises `ZeroDivisionError`, modelled as `none`. -/
def accessibilitySummary (pages : List PageData) (all_issues : List PageIssue) :
    Option AccessibilitySummary :=
  let rpages := pages.filter (fun p => p.readability.isSome)
  let avg : Option ℚ :=
    if pages = [] then some 0
    else checkedDiv
      ((rpages.map (fun p =>
        (p.readability.bind (fun r => r.flesch_reading_ease)).getD 0)).sum)
      (rpages.length : ℚ)
  avg.map (fun a =>
    { avg_score := a
      total_issues :=
        (all_issues.filter (fun i => isAccessibilityType i.issue_type)).length
      pages_with_critical :=
        ((all_issues.filter (fun i =>
          i.severity == "error" && isAccessibilityType i.issue_type)).map
          (fun i => i.url)).dedup.length })

/-- `CrawlResult` from models.py, restricted to the embedded fields
(sitemap/robots analyses and timestamps are external or carry no claimed
logic). -/
structure CrawlResult where
  task_id : String
  status : CrawlStatus
  base_url : String
  pages_crawled : Nat
  max_pages : Nat
  pages : List PageData
  issues : List PageIssue
  internal_linking_stats : InternalLinkingStats
  accessibility_summary : AccessibilitySummary
deriving Repr, DecidableEq

/-- Ghost observations of the crawl loop, recorded purely for specification:
the processing order, the visited set and the frontier at each loop-iteration
entry, and every URL ever appended to the frontier (the initial `[base_url]`
counts as the first enqueue). -/
structure CrawlGhost where
  processed : List String
  visitedTrace : List (Finset String)
  frontierTrace : List (List String)
  enqueueLog : List String

/-- The link-enqueueing loop (source lines 414–416): a discovered link is
appended only if it is in neither `visited` nor the current frontier; the
ghost `log` records every appended URL. -/
def enqueueLinks (visited : Finset String) :
    List String → List String → List String → List String × List String
  | q, log, [] => (q, log)
  | q, log, link :: links =>
    if link ∉ visited ∧ link ∉ q then
      enqueueLinks visited (q ++ [link]) (log ++ [link]) links
    else enqueueLinks visited q log links

/-- The crawl while-loop (source lines 389–416), with ghost instrumentation.
The progress emission (`self.update_state`) is an external side effect; the
visited-set snapshot in the trace plays its role here. -/
def crawlLoop (fetch : String → Option ParsedPage) (max_pages : Nat)
    (to_visit : List String) (visited : Finset String) (pages : List PageData)
    (all_issues : List PageIssue) (ghost : CrawlGhost) :
    Finset String × List PageData × List PageIssue × CrawlGhost :=
  if h : to_visit ≠ [] ∧ visited.card < max_pages then
    match to_visit, h with
    | [], h => absurd rfl h.1
    | current :: rest, _ =>
      let ghost₁ := { ghost with
        visitedTrace := ghost.visitedTrace ++ [visited]
        frontierTrace := ghost.frontierTrace ++ [current :: rest] }
      if current ∈ visited then
        crawlLoop fetch max_pages rest visited pages all_issues ghost₁
      else
        let visited' := insert current visited
        let r := crawl_page current (fetch current)
        let q := enqueueLinks visited' rest ghost₁.enqueueLog r.2.1
        crawlLoop fetch max_pages q.1 visited' (pages ++ [r.1]) (all_issues ++ r.2.2)
          { ghost₁ with
            processed := ghost₁.processed ++ [current]
            enqueueLog := q.2 }
  else (visited, pages, all_issues, ghost)
termination_by (max_pages - visited.card, to_visit.length)
decreasing_by
  · exact Prod.Lex.right _ (by simp)
  · apply Prod.Lex.left
    have h1 : current ∉ visited := by assumption
    rw [Finset.card_insert_of_not_mem h1]
    omega

/-- `crawl_website(base_url, max_pages, check_cwv)` (source lines 366–464)
over a fetch oracle.  Sitemap/robots fetching, Celery state and timestamps
are external; the traversal, per-page analysis, issue accumulation, the
final `analyze_internal_linking` call and the accessibility summary are
embedded.  The summary's `avg_score` division (source line 436) raises
`ZeroDivisionError` whenever pages were crawled but none carries a
readability score (every fetch failed); the exception escapes `_crawl`, the
task `self.retry`s (line 464) and never returns a COMPLETED result — that
run is the `none` first component.  A normal return always carries status
COMPLETED (source line 447).  The final visited set and the ghost trace are
also returned, for specification. -/
def crawl_website (fetch : String → Option ParsedPage) (task_id base_url : String)
    (max_pages : Nat := 100) : Option CrawlResult × Finset String × CrawlGhost :=
  let r := crawlLoop fetch max_pages [base_url] ∅ [] []
    { processed := [], visitedTrace := [], frontierTrace := [], enqueueLog := [base_url] }
  let pages := r.2.1
  let all_issues := r.2.2.1
  let internal_linking_stats := analyze_internal_linking
    (pages.map (fun p => (p.url, p.internal_links))) base_url
  ((accessibilitySummary pages all_issues).map (fun s =>
    { task_id := task_id
      status := .completed
      base_url := base_url
      pages_crawled := pages.length
      max_pages := max_pages
      pages := pages
      issues := all_issues
      internal_linking_stats := internal_linking_stats
      accessibility_summary := s }), r.1, r.2.2.2)

/-! ### Per-group facts about the issues `crawl_page` emits -/

theorem httpIssues_spec (url : String) (s : Nat) :
    ∀ i ∈ httpIssues url s, i.url = url ∧ i.issue_type = "http_error" := by
  intro i hi
  unfold httpIssues at hi
  split at hi
  · rw [List.mem_singleton] at hi
    subst hi
    exact ⟨rfl, rfl⟩
  · exact absurd hi (List.not_mem_nil _)

theorem h1Issues_spec (url : String) (h1s : List String) :
    ∀ i ∈ h1Issues url h1s, i.url = url ∧
      ((i.issue_type = "missing_h1" ∧ i.severity = "error") ∨
       (i.issue_type = "multiple_h1" ∧ i.severity = "warning")) := by
  intro i hi
  unfold h1Issues at hi
  split at hi
  · rw [List.mem_singleton] at hi
    subst hi
    exact ⟨rfl, Or.inl ⟨rfl, rfl⟩⟩
  · split at hi
    · rw [List.mem_singleton] at hi
      subst hi
      exact ⟨rfl, Or.inr ⟨rfl, rfl⟩⟩
    · exact absurd hi (List.not_mem_nil _)

theorem metaIssues_spec (url : String) (m : Option String) :
    ∀ i ∈ metaIssues url m, i.url = url ∧
      (i.issue_type = "missing_meta_description" ∨
       i.issue_type = "meta_description_too_long") := by
  intro i hi
  unfold metaIssues at hi
  split at hi
  · rw [List.mem_singleton] at hi
    subst hi
    exact ⟨rfl, Or.inl rfl⟩
  · split at hi
    · rw [List.mem_singleton] at hi
      subst hi
      exact ⟨rfl, Or.inr rfl⟩
    · exact absurd hi (List.not_mem_nil _)

theorem titleIssues_spec (url : String) (t : Option String) :
    ∀ i ∈ titleIssues url t, i.url = url ∧
      (i.issue_type = "title_too_short" ∨ i.issue_type = "title_too_long") := by
  intro i hi
  unfold titleIssues at hi
  split at hi
  · split at hi
    · rw [List.mem_singleton] at hi
      subst hi
      exact ⟨rfl, Or.inl rfl⟩
    · split at hi
      · rw [List.mem_singleton] at hi
        subst hi
        exact ⟨rfl, Or.inr rfl⟩
      · exact absurd hi (List.not_mem_nil _)
  · exact absurd hi (List.not_mem_nil _)

theorem altTextIssues_spec (url : String) (images : List ImageInfo) :
    ∀ i ∈ altTextIssues url images, i.url = url ∧ i.issue_type = "missing_alt_text" := by
  intro i hi
  unfold altTextIssues at hi
  rcases List.mem_map.mp hi with ⟨x, _, rfl⟩
  exact ⟨rfl, rfl⟩

theorem imageFormatIssues_spec (url : String) (images : List ImageInfo) :
    ∀ i ∈ imageFormatIssues url images,
      i.url = url ∧ i.issue_type = "non_optimized_images" := by
  intro i hi
  unfold imageFormatIssues at hi
  dsimp only at hi
  split at hi
  · rw [List.mem_singleton] at hi
    subst hi
    exact ⟨rfl, rfl⟩
  · exact absurd hi (List.not_mem_nil _)

theorem contentIssues_spec (url : String) (cq : ContentQuality) (wc : Nat) :
    ∀ i ∈ contentIssues url cq wc, i.url = url ∧
      (i.issue_type = "thin_content" ∨ i.issue_type = "missing_subheadings") := by
  intro i hi
  unfold contentIssues at hi
  rcases List.mem_append.mp hi with h | h
  · split at h
    · rw [List.mem_singleton] at h
      subst h
      exact ⟨rfl, Or.inl rfl⟩
    · exact absurd h (List.not_mem_nil _)
  · split at h
    · rw [List.mem_singleton] at h
      subst h
      exact ⟨rfl, Or.inr rfl⟩
    · exact absurd h (List.not_mem_nil _)

theorem schemaIssues_spec (url : String) (ms : List String) :
    ∀ i ∈ schemaIssues url ms, i.url = url ∧ i.issue_type = "missing_structured_data" := by
  intro i hi
  unfold schemaIssues at hi
  split at hi
  · rw [List.mem_singleton] at hi
    subst hi
    exact ⟨rfl, rfl⟩
  · exact absurd hi (List.not_mem_nil _)

theorem securityIssues_spec (url : String) (sh : SecurityHeaders) :
    ∀ i ∈ securityIssues url sh, i.url = url ∧ i.issue_type = "security_headers" := by
  intro i hi
  unfold securityIssues at hi
  split at hi
  · rw [List.mem_singleton] at hi
    subst hi
    exact ⟨rfl, rfl⟩
  · exact absurd hi (List.not_mem_nil _)

theorem accessIssues_spec (url : String) (c s : Nat) :
    ∀ i ∈ accessIssues url c s, i.url = url ∧
      (i.issue_type = "accessibility_critical" ∨
       i.issue_type = "accessibility_serious") := by
  intro i hi
  unfold accessIssues at hi
  rcases List.mem_append.mp hi with h | h
  · split at h
    · rw [List.mem_singleton] at h
      subst h
      exact ⟨rfl, Or.inl rfl⟩
    · exact absurd h (List.not_mem_nil _)
  · split at h
    · rw [List.mem_singleton] at h
      subst h
      exact ⟨rfl, Or.inr rfl⟩
    · exact absurd h (List.not_mem_nil _)

/-- On a successfully fetched page the issue list of `crawl_page` is the
pre-readability issues followed by the post-readability issues: readability
is total, so the except branch is never taken. -/
theorem crawl_page_some_issues (url : String) (p : ParsedPage) :
    ∃ r : ReadabilityScore,
      (crawl_page url (some p)).2.2 = preIssues url p ++ postIssues url p r := by
  obtain ⟨r, hr⟩ := Option.isSome_iff_exists.mp
    (calculate_readability_safe p.contentText (p.title.getD "")
      ((p.h1s.head?).getD "") "").2.1
  refine ⟨r, ?_⟩
  unfold crawl_page
  dsimp only
  unfold crawlPageTry
  rw [hr]

/-- Every issue emitted by `crawl_page` carries the crawled URL. -/
theorem crawl_page_issue_url (url : String) (fetched : Option ParsedPage) :
    ∀ i ∈ (crawl_page url fetched).2.2, i.url = url := by
  cases fetched with
  | none =>
    intro i hi
    rw [show (crawl_page url none).2.2 = [crawlErrorIssue url] from rfl,
      List.mem_singleton] at hi
    subst hi
    rfl
  | some p =>
    obtain ⟨r, hr⟩ := crawl_page_some_issues url p
    rw [hr]
    intro i hi
    rcases List.mem_append.mp hi with h | h
    · unfold preIssues at h
      rcases List.mem_append.mp h with h | h
      rotate_left
      · exact (imageFormatIssues_spec _ _ i h).1
      rcases List.mem_append.mp h with h | h
      rotate_left
      · exact (altTextIssues_spec _ _ i h).1
      rcases List.mem_append.mp h with h | h
      rotate_left
      · exact (titleIssues_spec _ _ i h).1
      rcases List.mem_append.mp h with h | h
      rotate_left
      · exact (metaIssues_spec _ _ i h).1
      rcases List.mem_append.mp h with h | h
      · exact (httpIssues_spec _ _ i h).1
      · exact (h1Issues_spec _ _ i h).1
    · unfold postIssues at h
      rcases List.mem_append.mp h with h | h
      rotate_left
      · exact (accessIssues_spec _ _ _ i h).1
      rcases List.mem_append.mp h with h | h
      rotate_left
      · exact (securityIssues_spec _ _ i h).1
      rcases List.mem_append.mp h with h | h
      · exact (contentIssues_spec _ _ _ i h).1
      · exact (schemaIssues_spec _ _ i h).1

theorem countP_zero_of_type_mem {l : List PageIssue} (ts : List String)
    (hspec : ∀ i ∈ l, i.issue_type ∈ ts) {t : String} (ht : t ∉ ts) :
    l.countP (fun i => i.issue_type = t) = 0 := by
  rw [List.countP_eq_zero]
  intro i hi
  simp only [decide_eq_true_eq]
  intro he
  exact ht (he ▸ hspec i hi)

/-- Of all the issue groups of `crawl_page`, only the h1 group can emit a
`missing_h1` or `multiple_h1` issue: counting either type over the full issue
list reduces to counting it over `h1Issues`. -/
theorem crawl_page_h1_count (url : String) (p : ParsedPage) (t : String)
    (ht : t = "missing_h1" ∨ t = "multiple_h1") :
    (crawl_page url (some p)).2.2.countP (fun i => i.issue_type = t) =
      (h1Issues url p.h1s).countP (fun i => i.issue_type = t) := by
  obtain ⟨r, hr⟩ := crawl_page_some_issues url p
  rw [hr]
  unfold preIssues postIssues
  simp only [List.countP_append]
  have z1 : (httpIssues url p.statusCode).countP (fun i => i.issue_type = t) = 0 :=
    countP_zero_of_type_mem ["http_error"]
      (fun i hi => by rw [(httpIssues_spec _ _ i hi).2]; simp)
      (by rcases ht with rfl | rfl <;> decide)
  have z2 : (metaIssues url p.metaDesc).countP (fun i => i.issue_type = t) = 0 :=
    countP_zero_of_type_mem
      ["missing_meta_description", "meta_description_too_long"]
      (fun i hi => by rcases (metaIssues_spec _ _ i hi).2 with h | h <;> simp [h])
      (by rcases ht with rfl | rfl <;> decide)
  have z3 : (titleIssues url p.title).countP (fun i => i.issue_type = t) = 0 :=
    countP_zero_of_type_mem ["title_too_short", "title_too_long"]
      (fun i hi => by rcases (titleIssues_spec _ _ i hi).2 with h | h <;> simp [h])
      (by rcases ht with rfl | rfl <;> decide)
  have z4 : (altTextIssues url p.images).countP (fun i => i.issue_type = t) = 0 :=
    countP_zero_of_type_mem ["missing_alt_text"]
      (fun i hi => by rw [(altTextIssues_spec _ _ i hi).2]; simp)
      (by rcases ht with rfl | rfl <;> decide)
  have z5 : (imageFormatIssues url p.images).countP (fun i => i.issue_type = t) = 0 :=
    countP_zero_of_type_mem ["non_optimized_images"]
      (fun i hi => by rw [(imageFormatIssues_spec _ _ i hi).2]; simp)
      (by rcases ht with rfl | rfl <;> decide)
  have z6 : (contentIssues url (analyze_content_quality p.contentText p.headings [])
      r.word_count).countP (fun i => i.issue_type = t) = 0 :=
    countP_zero_of_type_mem ["thin_content", "missing_subheadings"]
      (fun i hi => by rcases (contentIssues_spec _ _ _ i hi).2 with h | h <;> simp [h])
      (by rcases ht with rfl | rfl <;> decide)
  have z7 : (schemaIssues url p.missingSchemas).countP (fun i => i.issue_type = t) = 0 :=
    countP_zero_of_type_mem ["missing_structured_data"]
      (fun i hi => by rw [(schemaIssues_spec _ _ i hi).2]; simp)
      (by rcases ht with rfl | rfl <;> decide)
  have z8 : (securityIssues url (analyze_security_headers p.headers)).countP
      (fun i => i.issue_type = t) = 0 :=
    countP_zero_of_type_mem ["security_headers"]
      (fun i hi => by rw [(securityIssues_spec _ _ i hi).2]; simp)
      (by rcases ht with rfl | rfl <;> decide)
  have z9 : (accessIssues url p.accessibilityCritical p.accessibilitySerious).countP
      (fun i => i.issue_type = t) = 0 :=
    countP_zero_of_type_mem
      ["accessibility_critical", "accessibility_serious"]
      (fun i hi => by rcases (accessIssues_spec _ _ _ i hi).2 with h | h <;> simp [h])
      (by rcases ht with rfl | rfl <;> decide)
  omega

theorem h1Issues_counts (url : String) (h1s : List String) :
    (h1s = [] →
      (h1Issues url h1s).countP (fun i => i.issue_type = "missing_h1") = 1 ∧
      (h1Issues url h1s).countP (fun i => i.issue_type = "multiple_h1") = 0) ∧
    (2 ≤ h1s.length →
      (h1Issues url h1s).countP (fun i => i.issue_type = "multiple_h1") = 1 ∧
      (h1Issues url h1s).countP (fun i => i.issue_type = "missing_h1") = 0) := by
  constructor
  · intro h
    subst h
    unfold h1Issues
    rw [if_pos rfl]
    constructor <;> simp [List.countP_cons]
  · intro h
    unfold h1Issues
    rw [if_neg (by intro he; rw [he] at h; simp at h), if_pos (by omega)]
    constructor <;> simp [List.countP_cons]

theorem h1_sev_of_other {i : PageIssue} {t1 : String} (h : i.issue_type = t1)
    (h1 : t1 ≠ "missing_h1") (h2 : t1 ≠ "multiple_h1") :
    (i.issue_type = "missing_h1" → i.severity = "error") ∧
    (i.issue_type = "multiple_h1" → i.severity = "warning") :=
  ⟨fun he => absurd (h.symm.trans he) h1, fun he => absurd (h.symm.trans he) h2⟩

/-- h1-related severities through the whole issue list of `crawl_page`. -/
theorem crawl_page_h1_severity (url : String) (p : ParsedPage) :
    ∀ i ∈ (crawl_page url (some p)).2.2,
      (i.issue_type = "missing_h1" → i.severity = "error") ∧
      (i.issue_type = "multiple_h1" → i.severity = "warning") := by
  obtain ⟨r, hr⟩ := crawl_page_some_issues url p
  rw [hr]
  intro i hi
  rcases List.mem_append.mp hi with h | h
  · unfold preIssues at h
    rcases List.mem_append.mp h with h | h
    rotate_left
    · exact h1_sev_of_other (imageFormatIssues_spec _ _ i h).2 (by decide) (by decide)
    rcases List.mem_append.mp h with h | h
    rotate_left
    · exact h1_sev_of_other (altTextIssues_spec _ _ i h).2 (by decide) (by decide)
    rcases List.mem_append.mp h with h | h
    rotate_left
    · rcases (titleIssues_spec _ _ i h).2 with ht | ht <;>
        exact h1_sev_of_other ht (by decide) (by decide)
    rcases List.mem_append.mp h with h | h
    rotate_left
    · rcases (metaIssues_spec _ _ i h).2 with ht | ht <;>
        exact h1_sev_of_other ht (by decide) (by decide)
    rcases List.mem_append.mp h with h | h
    · exact h1_sev_of_other (httpIssues_spec _ _ i h).2 (by decide) (by decide)
    · rcases (h1Issues_spec _ _ i h).2 with ⟨ht, hs⟩ | ⟨ht, hs⟩
      · exact ⟨fun _ => hs, fun he => absurd (ht.symm.trans he) (by decide)⟩
      · exact ⟨fun he => absurd (ht.symm.trans he) (by decide), fun _ => hs⟩
  · unfold postIssues at h
    rcases List.mem_append.mp h with h | h
    rotate_left
    · rcases (accessIssues_spec _ _ _ i h).2 with ht | ht <;>
        exact h1_sev_of_other ht (by decide) (by decide)
    rcases List.mem_append.mp h with h | h
    rotate_left
    · exact h1_sev_of_other (securityIssues_spec _ _ i h).2 (by decide) (by decide)
    rcases List.mem_append.mp h with h | h
    · rcases (contentIssues_spec _ _ _ i h).2 with ht | ht <;>
        exact h1_sev_of_other ht (by decide) (by decide)
    · exact h1_sev_of_other (schemaIssues_spec _ _ i h).2 (by decide) (by decide)

/-- C9: a parsed page with no h1 element yields exactly one `missing_h1`
issue, of severity error; a parsed page with two or more h1 elements yields
exactly one `multiple_h1` issue, of severity warning, and no `missing_h1`
issue. -/
theorem h1_issue_generation (url : String) (p : ParsedPage) :
    (p.h1s = [] →
      (crawl_page url (some p)).2.2.countP (fun i => i.issue_type = "missing_h1") = 1 ∧
      (∀ i ∈ (crawl_page url (some p)).2.2,
        i.issue_type = "missing_h1" → i.severity = "error") ∧
      (crawl_page url (some p)).2.2.countP (fun i => i.issue_type = "multiple_h1") = 0) ∧
    (2 ≤ p.h1s.length →
      (crawl_page url (some p)).2.2.countP (fun i => i.issue_type = "multiple_h1") = 1 ∧
      (∀ i ∈ (crawl_page url (some p)).2.2,
        i.issue_type = "multiple_h1" → i.severity = "warning") ∧
      (crawl_page url (some p)).2.2.countP (fun i => i.issue_type = "missing_h1") = 0) := by
  constructor
  · intro h
    refine ⟨?_, ?_, ?_⟩
    · rw [crawl_page_h1_count url p _ (Or.inl rfl)]
      exact ((h1Issues_counts url p.h1s).1 h).1
    · exact fun i hi => (crawl_page_h1_severity url p i hi).1
    · rw [crawl_page_h1_count url p _ (Or.inr rfl)]
      exact ((h1Issues_counts url p.h1s).1 h).2
  · intro h
    refine ⟨?_, ?_, ?_⟩
    · rw [crawl_page_h1_count url p _ (Or.inr rfl)]
      exact ((h1Issues_counts url p.h1s).2 h).1
    · exact fun i hi => (crawl_page_h1_severity url p i hi).2
    · rw [crawl_page_h1_count url p _ (Or.inl rfl)]
      exact ((h1Issues_counts url p.h1s).2 h).2

/-- A page with no h1 at all. -/
def c9pageNoH1 : ParsedPage := { statusCode := 200 }

/-- A page with two h1 elements. -/
def c9pageTwoH1 : ParsedPage := { statusCode := 200, h1s := ["First", "Second"] }

/-- Witness for C9 at two concrete pages, one with no h1, one with two. -/
theorem h1_issue_generation_witness :
    ((crawl_page "u" (some c9pageNoH1)).2.2.countP
        (fun i => i.issue_type = "missing_h1") = 1 ∧
      (∀ i ∈ (crawl_page "u" (some c9pageNoH1)).2.2,
        i.issue_type = "missing_h1" → i.severity = "error") ∧
      (crawl_page "u" (some c9pageNoH1)).2.2.countP
        (fun i => i.issue_type = "multiple_h1") = 0) ∧
    ((crawl_page "v" (some c9pageTwoH1)).2.2.countP
        (fun i => i.issue_type = "multiple_h1") = 1 ∧
      (∀ i ∈ (crawl_page "v" (some c9pageTwoH1)).2.2,
        i.issue_type = "multiple_h1" → i.severity = "warning") ∧
      (crawl_page "v" (some c9pageTwoH1)).2.2.countP
        (fun i => i.issue_type = "missing_h1") = 0) :=
  ⟨(h1_issue_generation "u" c9pageNoH1).1 rfl,
   (h1_issue_generation "v" c9pageTwoH1).2 (by decide)⟩


/-! ### The crawl-loop invariants (C1, C2, C3) -/

/-- The enqueue fold preserves: frontier and log duplicate-free, the log is
exactly `visited ∪ frontier`, and the frontier avoids `visited`. -/
theorem enqueueLinks_spec (visited : Finset String) :
    ∀ (links q log : List String), q.Nodup → log.Nodup →
      (∀ u, u ∈ log ↔ u ∈ visited ∨ u ∈ q) →
      (∀ u ∈ q, u ∉ visited) →
      (enqueueLinks visited q log links).1.Nodup ∧
      (enqueueLinks visited q log links).2.Nodup ∧
      (∀ u, u ∈ (enqueueLinks visited q log links).2 ↔
        u ∈ visited ∨ u ∈ (enqueueLinks visited q log links).1) ∧
      (∀ u ∈ (enqueueLinks visited q log links).1, u ∉ visited) := by
  intro links
  induction links with
  | nil =>
    intro q log h1 h2 h3 h4
    simp only [enqueueLinks]
    exact ⟨h1, h2, h3, h4⟩
  | cons link links ih =>
    intro q log h1 h2 h3 h4
    by_cases hl : link ∉ visited ∧ link ∉ q
    · have hstep : enqueueLinks visited q log (link :: links) =
          enqueueLinks visited (q ++ [link]) (log ++ [link]) links := by
        simp only [enqueueLinks]
        rw [if_pos hl]
      rw [hstep]
      have hlog : link ∉ log := fun hm => by
        rcases (h3 link).mp hm with h | h
        · exact hl.1 h
        · exact hl.2 h
      refine ih (q ++ [link]) (log ++ [link]) ?_ ?_ ?_ ?_
      · rw [List.nodup_append]
        refine ⟨h1, List.nodup_singleton _, ?_⟩
        intro a ha hb
        rw [List.mem_singleton] at hb
        subst hb
        exact hl.2 ha
      · rw [List.nodup_append]
        refine ⟨h2, List.nodup_singleton _, ?_⟩
        intro a ha hb
        rw [List.mem_singleton] at hb
        subst hb
        exact hlog ha
      · intro u
        simp only [List.mem_append, List.mem_singleton, h3 u]
        tauto
      · intro u hu
        rcases List.mem_append.mp hu with h | h
        · exact h4 u h
        · rw [List.mem_singleton] at h
          subst h
          exact hl.1
    · have hstep : enqueueLinks visited q log (link :: links) =
          enqueueLinks visited q log links := by
        simp only [enqueueLinks]
        rw [if_neg hl]
      rw [hstep]
      exact ih q log h1 h2 h3 h4

/-- One process-step of the crawl loop, unfolded: the frontier head is fresh
and capacity remains, so the page is crawled, its record and issues appended,
its fresh links enqueued, and the ghost extended. -/
theorem crawlLoop_process_step (fetch : String → Option ParsedPage) (max_pages : Nat)
    (current : String) (rest : List String) (visited : Finset String)
    (pages : List PageData) (all_issues : List PageIssue) (ghost : CrawlGhost)
    (hcard : visited.card < max_pages) (hnmem : current ∉ visited) :
    crawlLoop fetch max_pages (current :: rest) visited pages all_issues ghost =
      crawlLoop fetch max_pages
        (enqueueLinks (insert current visited) rest ghost.enqueueLog
          (crawl_page current (fetch current)).2.1).1
        (insert current visited)
        (pages ++ [(crawl_page current (fetch current)).1])
        (all_issues ++ (crawl_page current (fetch current)).2.2)
        { processed := ghost.processed ++ [current]
          visitedTrace := ghost.visitedTrace ++ [visited]
          frontierTrace := ghost.frontierTrace ++ [current :: rest]
          enqueueLog := (enqueueLinks (insert current visited) rest ghost.enqueueLog
            (crawl_page current (fetch current)).2.1).2 } := by
  conv_lhs => rw [crawlLoop.eq_def]
  rw [dif_pos ⟨List.cons_ne_nil current rest, hcard⟩]
  dsimp only
  rw [if_neg hnmem]

/-- The crawl loop halts as soon as the frontier is empty or the visited set
has reached `max_pages`, returning the accumulated state unchanged. -/
theorem crawlLoop_stop (fetch : String → Option ParsedPage) (max_pages : Nat)
    (to_visit : List String) (visited : Finset String) (pages : List PageData)
    (all_issues : List PageIssue) (ghost : CrawlGhost)
    (h : ¬(to_visit ≠ [] ∧ visited.card < max_pages)) :
    crawlLoop fetch max_pages to_visit visited pages all_issues ghost =
      (visited, pages, all_issues, ghost) := by
  rw [crawlLoop.eq_def]
  rw [dif_neg h]

/-- Loop invariant of `crawl_website`'s traversal: the frontier is
duplicate-free and disjoint from `visited`; `visited` is exactly the set of
processed URLs, each processed at most once and never more than `max_pages`
many; every visited-set snapshot respects the bound and every frontier
snapshot is duplicate-free; the enqueue log is duplicate-free and holds
exactly `visited ∪ frontier`; and the page records and issues are exactly
those of `crawl_page` on the processed URLs, in processing order. -/
structure LoopInv (fetch : String → Option ParsedPage) (max_pages : Nat)
    (to_visit : List String) (visited : Finset String) (pages : List PageData)
    (all_issues : List PageIssue) (ghost : CrawlGhost) : Prop where
  frontier_nodup : to_visit.Nodup
  frontier_fresh : ∀ u ∈ to_visit, u ∉ visited
  visited_eq : visited = ghost.processed.toFinset
  processed_nodup : ghost.processed.Nodup
  card_le : visited.card ≤ max_pages
  trace_card : ∀ v ∈ ghost.visitedTrace, v.card ≤ max_pages
  trace_nodup : ∀ f ∈ ghost.frontierTrace, f.Nodup
  log_nodup : ghost.enqueueLog.Nodup
  log_iff : ∀ u, u ∈ ghost.enqueueLog ↔ u ∈ visited ∨ u ∈ to_visit
  pages_eq : pages = ghost.processed.map (fun u => (crawl_page u (fetch u)).1)
  issues_eq : all_issues =
    ghost.processed.flatMap (fun u => (crawl_page u (fetch u)).2.2)

/-- What holds of the crawl loop's result: the returned visited set is the
set of processed URLs, within the `max_pages` bound at every snapshot and at
the end; no URL processed, enqueued, or held on any frontier snapshot twice;
and the page records and issues are exactly `crawl_page` of each processed
URL in order. -/
def CrawlPost (fetch : String → Option ParsedPage) (max_pages : Nat)
    (result : Finset String × List PageData × List PageIssue × CrawlGhost) : Prop :=
  result.1 = result.2.2.2.processed.toFinset ∧
  result.2.2.2.processed.Nodup ∧
  result.1.card ≤ max_pages ∧
  (∀ v ∈ result.2.2.2.visitedTrace, v.card ≤ max_pages) ∧
  (∀ f ∈ result.2.2.2.frontierTrace, f.Nodup) ∧
  result.2.2.2.enqueueLog.Nodup ∧
  result.2.1 = result.2.2.2.processed.map (fun u => (crawl_page u (fetch u)).1) ∧
  result.2.2.1 = result.2.2.2.processed.flatMap (fun u => (crawl_page u (fetch u)).2.2)

/-- The crawl loop carries `LoopInv` to `CrawlPost`. -/
theorem crawlLoop_correct (fetch : String → Option ParsedPage) (max_pages : Nat)
    (to_visit : List String) (visited : Finset String) (pages : List PageData)
    (all_issues : List PageIssue) (ghost : CrawlGhost) :
    LoopInv fetch max_pages to_visit visited pages all_issues ghost →
    CrawlPost fetch max_pages
      (crawlLoop fetch max_pages to_visit visited pages all_issues ghost) := by
  induction to_visit, visited, pages, all_issues, ghost
    using crawlLoop.induct fetch max_pages with
  | case1 visited pages all_issues ghost h h' => exact absurd rfl h.1
  | case2 visited pages all_issues ghost current rest h ghost₁ hmem h' ih =>
    intro inv
    exact absurd hmem (inv.frontier_fresh current (List.mem_cons_self _ _))
  | case3 visited pages all_issues ghost current rest h ghost₁ hnmem visited' r q h' ih =>
    intro inv
    have hq : q = enqueueLinks visited' rest ghost₁.enqueueLog r.2.1 := rfl
    have hv : visited' = insert current visited := rfl
    have hr : r = crawl_page current (fetch current) := rfl
    have hg : ghost₁ =
        { processed := ghost.processed,
          visitedTrace := ghost.visitedTrace ++ [visited],
          frontierTrace := ghost.frontierTrace ++ [current :: rest],
          enqueueLog := ghost.enqueueLog } := rfl
    rw [hq, hv, hr, hg] at ih
    dsimp only at ih
    rw [crawlLoop_process_step fetch max_pages current rest visited pages all_issues
      ghost h.2 hnmem]
    apply ih
    have hrest_nodup : rest.Nodup := (List.nodup_cons.mp inv.frontier_nodup).2
    have hcur_rest : current ∉ rest := (List.nodup_cons.mp inv.frontier_nodup).1
    have hfresh' : ∀ u ∈ rest, u ∉ insert current visited := by
      intro u hu
      rw [Finset.mem_insert]
      rintro (rfl | hvis)
      · exact hcur_rest hu
      · exact inv.frontier_fresh u (List.mem_cons_of_mem _ hu) hvis
    have hiff : ∀ u, u ∈ ghost.enqueueLog ↔ u ∈ insert current visited ∨ u ∈ rest := by
      intro u
      rw [inv.log_iff u]
      simp only [Finset.mem_insert, List.mem_cons]
      tauto
    have hspec := enqueueLinks_spec (insert current visited)
      (crawl_page current (fetch current)).2.1 rest ghost.enqueueLog
      hrest_nodup inv.log_nodup hiff hfresh'
    refine
      { frontier_nodup := hspec.1
        frontier_fresh := hspec.2.2.2
        visited_eq := ?_
        processed_nodup := ?_
        card_le := ?_
        trace_card := ?_
        trace_nodup := ?_
        log_nodup := hspec.2.1
        log_iff := hspec.2.2.1
        pages_eq := ?_
        issues_eq := ?_ }
    · rw [inv.visited_eq]
      ext x
      simp only [Finset.mem_insert, List.mem_toFinset, List.mem_append,
        List.mem_singleton]
      tauto
    · rw [List.nodup_append]
      refine ⟨inv.processed_nodup, List.nodup_singleton _, ?_⟩
      intro a ha hb
      rw [List.mem_singleton] at hb
      subst hb
      exact hnmem (inv.visited_eq ▸ List.mem_toFinset.mpr ha)
    · rw [Finset.card_insert_of_not_mem hnmem]
      omega
    · intro v hv
      rcases List.mem_append.mp hv with h1 | h1
      · exact inv.trace_card v h1
      · rw [List.mem_singleton] at h1
        subst h1
        omega
    · intro f hf
      rcases List.mem_append.mp hf with h1 | h1
      · exact inv.trace_nodup f h1
      · rw [List.mem_singleton] at h1
        subst h1
        exact inv.frontier_nodup
    · rw [inv.pages_eq, List.map_append]
      rfl
    · rw [inv.issues_eq, List.flatMap_append]
      simp [List.flatMap_cons]
  | case4 to_visit visited pages all_issues ghost h =>
    intro inv
    rw [crawlLoop_stop fetch max_pages to_visit visited pages all_issues ghost h]
    exact ⟨inv.visited_eq, inv.processed_nodup, inv.card_le, inv.trace_card,
      inv.trace_nodup, inv.log_nodup, inv.pages_eq, inv.issues_eq⟩

/-- The initial crawl state satisfies the loop invariant. -/
theorem crawl_init_inv (fetch : String → Option ParsedPage) (max_pages : Nat)
    (base_url : String) :
    LoopInv fetch max_pages [base_url] ∅ [] []
      { processed := [], visitedTrace := [], frontierTrace := []
        enqueueLog := [base_url] } := by
  refine
    { frontier_nodup := List.nodup_singleton _
      frontier_fresh := fun u _ => Finset.not_mem_empty u
      visited_eq := rfl
      processed_nodup := List.nodup_nil
      card_le := by simp
      trace_card := fun v hv => absurd hv (List.not_mem_nil _)
      trace_nodup := fun f hf => absurd hf (List.not_mem_nil _)
      log_nodup := List.nodup_singleton _
      log_iff := ?_
      pages_eq := rfl
      issues_eq := rfl }
  intro u
  simp

/-- The processed list only ever grows: anything processed on entry to the
loop is still in the processed list of the result. -/
theorem crawlLoop_processed_mono (fetch : String → Option ParsedPage) (max_pages : Nat)
    (to_visit : List String) (visited : Finset String) (pages : List PageData)
    (all_issues : List PageIssue) (ghost : CrawlGhost) :
    ∀ u ∈ ghost.processed,
      u ∈ (crawlLoop fetch max_pages to_visit visited pages
        all_issues ghost).2.2.2.processed := by
  induction to_visit, visited, pages, all_issues, ghost
    using crawlLoop.induct fetch max_pages with
  | case1 visited pages all_issues ghost h h' => exact absurd rfl h.1
  | case2 visited pages all_issues ghost current rest h ghost₁ hmem h' ih =>
    intro u hu
    have hstep : crawlLoop fetch max_pages (current :: rest) visited pages
        all_issues ghost =
        crawlLoop fetch max_pages rest visited pages all_issues ghost₁ := by
      conv_lhs => rw [crawlLoop.eq_def]
      rw [dif_pos ⟨List.cons_ne_nil current rest, h.2⟩]
      dsimp only
      rw [if_pos hmem]
    rw [hstep]
    exact ih u hu
  | case3 visited pages all_issues ghost current rest h ghost₁ hnmem visited' r q h' ih =>
    intro u hu
    have hq : q = enqueueLinks visited' rest ghost₁.enqueueLog r.2.1 := rfl
    have hv : visited' = insert current visited := rfl
    have hr : r = crawl_page current (fetch current) := rfl
    have hg : ghost₁ =
        { processed := ghost.processed,
          visitedTrace := ghost.visitedTrace ++ [visited],
          frontierTrace := ghost.frontierTrace ++ [current :: rest],
          enqueueLog := ghost.enqueueLog } := rfl
    rw [hq, hv, hr, hg] at ih
    dsimp only at ih
    rw [crawlLoop_process_step fetch max_pages current rest visited pages all_issues
      ghost h.2 hnmem]
    exact ih u (List.mem_append_left _ hu)
  | case4 to_visit visited pages all_issues ghost h =>
    intro u hu
    rw [crawlLoop_stop fetch max_pages to_visit visited pages all_issues ghost h]
    exact hu

/-- With a positive page budget, the base URL itself is always processed:
it is the first frontier entry and is fresh, so the first iteration crawls
it. -/
theorem crawl_base_processed (fetch : String → Option ParsedPage)
    (task_id base_url : String) (max_pages : Nat) (h : 0 < max_pages) :
    base_url ∈ (crawl_website fetch task_id base_url max_pages).2.2.processed := by
  unfold crawl_website
  dsimp only
  rw [crawlLoop_process_step fetch max_pages base_url [] ∅ [] []
    { processed := [], visitedTrace := [], frontierTrace := [],
      enqueueLog := [base_url] } (by simpa using h) (Finset.not_mem_empty _)]
  exact crawlLoop_processed_mono fetch max_pages _ _ _ _ _ base_url (by simp)

/-- C1: over any crawl run, the visited set never exceeds `max_pages` — at
every loop-entry snapshot and at the end — and no URL is added to `visited`
twice: the final visited set is exactly the set of processed URLs and the
processing list is duplicate-free. -/
theorem crawl_visited_bounded (fetch : String → Option ParsedPage)
    (task_id base_url : String) (max_pages : Nat) :
    (crawl_website fetch task_id base_url max_pages).2.1.card ≤ max_pages ∧
    (∀ v ∈ (crawl_website fetch task_id base_url max_pages).2.2.visitedTrace,
      v.card ≤ max_pages) ∧
    (crawl_website fetch task_id base_url max_pages).2.1 =
      (crawl_website fetch task_id base_url max_pages).2.2.processed.toFinset ∧
    (crawl_website fetch task_id base_url max_pages).2.2.processed.Nodup := by
  have h := crawlLoop_correct fetch max_pages [base_url] ∅ [] []
    { processed := [], visitedTrace := [], frontierTrace := [],
      enqueueLog := [base_url] } (crawl_init_inv fetch max_pages base_url)
  unfold crawl_website
  dsimp only
  exact ⟨h.2.2.1, h.2.2.2.1, h.1, h.2.1⟩

/-- C3: each URL is appended to the frontier at most once over the whole
run — the enqueue log, which records the initial base URL and every later
append, is duplicate-free — every frontier snapshot is duplicate-free, and
each URL is processed (visited) at most once. -/
theorem crawl_enqueue_once (fetch : String → Option ParsedPage)
    (task_id base_url : String) (max_pages : Nat) :
    (crawl_website fetch task_id base_url max_pages).2.2.enqueueLog.Nodup ∧
    (∀ f ∈ (crawl_website fetch task_id base_url max_pages).2.2.frontierTrace,
      f.Nodup) ∧
    (crawl_website fetch task_id base_url max_pages).2.2.processed.Nodup := by
  have h := crawlLoop_correct fetch max_pages [base_url] ∅ [] []
    { processed := [], visitedTrace := [], frontierTrace := [],
      enqueueLog := [base_url] } (crawl_init_inv fetch max_pages base_url)
  unfold crawl_website
  dsimp only
  exact ⟨h.2.2.2.2.2.1, h.2.2.2.2.1, h.2.1⟩

theorem countP_flatMap_eq {A B : Type} (l : List A) (g : A → List B) (p : B → Bool) :
    (l.flatMap g).countP p = (l.map (fun a => (g a).countP p)).sum := by
  induction l with
  | nil => rfl
  | cons a l ih => simp [List.flatMap_cons, List.countP_append, ih]

theorem sum_map_eq_one {A : Type} {f : A → Nat} {a : A} :
    ∀ {l : List A}, l.Nodup → a ∈ l → f a = 1 →
      (∀ b ∈ l, b ≠ a → f b = 0) → (l.map f).sum = 1 := by
  intro l
  induction l with
  | nil =>
    intro _ ha _ _
    exact absurd ha (List.not_mem_nil _)
  | cons x l ih =>
    intro hnd ha h1 h0
    simp only [List.map_cons, List.sum_cons]
    rcases List.mem_cons.mp ha with rfl | ha'
    · rw [h1]
      have hz : (l.map f).sum = 0 := by
        apply List.sum_eq_zero
        intro y hy
        obtain ⟨b, hb, rfl⟩ := List.mem_map.mp hy
        exact h0 b (List.mem_cons_of_mem _ hb)
          (fun he => (List.nodup_cons.mp hnd).1 (he ▸ hb))
      omega
    · have hx : f x = 0 := by
        apply h0 x (List.mem_cons_self _ _)
        intro he
        exact (List.nodup_cons.mp hnd).1 (he ▸ ha')
      rw [hx, Nat.zero_add]
      exact ih (List.nodup_cons.mp hnd).2 ha' h1
        (fun b hb => h0 b (List.mem_cons_of_mem _ hb))

/-- A successfully fetched page's record always carries a readability score:
`calculate_readability` is total, so the try body reaches the `PageData`
construction (source line 340, `readability=readability`). -/
theorem crawl_page_some_readability (url : String) (p : ParsedPage) :
    (crawl_page url (some p)).1.readability.isSome = true := by
  obtain ⟨r, hr⟩ := Option.isSome_iff_exists.mp
    (calculate_readability_safe p.contentText (p.title.getD "")
      ((p.h1s.head?).getD "") "").2.1
  unfold crawl_page
  dsimp only
  unfold crawlPageTry
  rw [hr]
  rfl

/-- The accessibility summary exists as soon as one crawled page carries a
readability score: the page list is then nonempty and the `avg_score`
denominator is positive. -/
theorem accessibilitySummary_isSome (pages : List PageData)
    (all_issues : List PageIssue) (hp : ∃ q ∈ pages, q.readability.isSome = true) :
    (accessibilitySummary pages all_issues).isSome = true := by
  obtain ⟨q, hq, hqs⟩ := hp
  have hmemf : q ∈ pages.filter (fun p => p.readability.isSome) :=
    List.mem_filter.mpr ⟨hq, hqs⟩
  have hlen : 0 < (pages.filter (fun p => p.readability.isSome)).length :=
    List.length_pos.mpr (List.ne_nil_of_mem hmemf)
  have hne : ((pages.filter (fun p => p.readability.isSome)).length : ℚ) ≠ 0 := by
    rw [Nat.cast_ne_zero]
    omega
  unfold accessibilitySummary checkedDiv
  dsimp only
  rw [if_neg (by rintro rfl; exact absurd hq (List.not_mem_nil _)), if_neg hne]
  rfl

/-- Capacity-only halt: once `visited` has reached `max_pages`, the loop
returns immediately whatever the frontier holds. -/
theorem crawlLoop_stop_card (fetch : String → Option ParsedPage) (max_pages : Nat)
    (to_visit : List String) (visited : Finset String) (pages : List PageData)
    (all_issues : List PageIssue) (ghost : CrawlGhost)
    (h : ¬ visited.card < max_pages) :
    crawlLoop fetch max_pages to_visit visited pages all_issues ghost =
      (visited, pages, all_issues, ghost) :=
  crawlLoop_stop fetch max_pages to_visit visited pages all_issues ghost
    (fun hc => h hc.2)

/-- C2 counterexample: when EVERY fetch fails, the one processed page's
record carries no readability score, the accessibility summary's `avg_score`
division raises `ZeroDivisionError`, and the job produces no COMPLETED
result at all — refuting "the job still completes" as stated for all runs
containing a failed page. -/
theorem crawl_all_fail_counterexample :
    (crawl_website (fun _ => none) "t" "r" 1).1 = none := by
  unfold crawl_website
  dsimp only
  rw [crawlLoop_process_step (fun _ => none) 1 "r" [] ∅ [] []
    { processed := [], visitedTrace := [], frontierTrace := [], enqueueLog := ["r"] }
    (by decide) (by decide)]
  rw [crawlLoop_stop_card (fun _ => none) 1 _ (insert "r" ∅) _ _ _ (by decide)]
  decide

/-- C2 (amended): a page failure is isolated provided some processed page was
fetched successfully: the job then completes — a COMPLETED result is
produced — the failed URL's record has status_code 0 and appears in the
result pages, the issue list carries exactly one `crawl_error` issue of
severity error for that URL, and the result pages are exactly `crawl_page`
of each processed URL in processing order (every other page fully
analyzed).  Without a successful page, the accessibility summary divides by
zero and no result is produced (`crawl_all_fail_counterexample`). -/
theorem crawl_page_failure_isolated (fetch : String → Option ParsedPage)
    (task_id base_url url : String) (max_pages : Nat)
    (hfail : fetch url = none)
    (hmem : url ∈ (crawl_website fetch task_id base_url max_pages).2.2.processed)
    (hsucc : ∃ w ∈ (crawl_website fetch task_id base_url max_pages).2.2.processed,
      (fetch w).isSome = true) :
    ∃ res : CrawlResult,
      (crawl_website fetch task_id base_url max_pages).1 = some res ∧
      res.status = CrawlStatus.completed ∧
      ({ url := url, status_code := 0 } : PageData) ∈ res.pages ∧
      res.issues.countP (fun i => i.url = url ∧ i.issue_type = "crawl_error" ∧
        i.severity = "error") = 1 ∧
      res.pages = (crawl_website fetch task_id base_url max_pages).2.2.processed.map
        (fun u => (crawl_page u (fetch u)).1) := by
  have h := crawlLoop_correct fetch max_pages [base_url] ∅ [] []
    { processed := [], visitedTrace := [], frontierTrace := [],
      enqueueLog := [base_url] } (crawl_init_inv fetch max_pages base_url)
  obtain ⟨w, hw, hwsome⟩ := hsucc
  obtain ⟨p, hp⟩ := Option.isSome_iff_exists.mp hwsome
  unfold crawl_website at hmem hw ⊢
  dsimp only at hmem hw ⊢
  have hsum := accessibilitySummary_isSome
    (crawlLoop fetch max_pages [base_url] ∅ [] []
      { processed := [], visitedTrace := [], frontierTrace := [],
        enqueueLog := [base_url] }).2.1
    (crawlLoop fetch max_pages [base_url] ∅ [] []
      { processed := [], visitedTrace := [], frontierTrace := [],
        enqueueLog := [base_url] }).2.2.1
    ⟨(crawl_page w (fetch w)).1,
     by rw [h.2.2.2.2.2.2.1]; exact List.mem_map.mpr ⟨w, hw, rfl⟩,
     by rw [hp]; exact crawl_page_some_readability w p⟩
  obtain ⟨s, hs⟩ := Option.isSome_iff_exists.mp hsum
  rw [hs]
  simp only [Option.map_some']
  refine ⟨_, rfl, rfl, ?_, ?_, h.2.2.2.2.2.2.1⟩
  · dsimp only
    rw [h.2.2.2.2.2.2.1]
    refine List.mem_map.mpr ⟨url, hmem, ?_⟩
    dsimp only
    rw [hfail]
    rfl
  · dsimp only
    rw [h.2.2.2.2.2.2.2, countP_flatMap_eq]
    apply sum_map_eq_one h.2.1 hmem
    · dsimp only
      rw [hfail]
      simp [crawl_page, crawlErrorIssue, List.countP_cons, List.countP_nil]
    · intro b hb hbne
      dsimp only
      rw [List.countP_eq_zero]
      intro i hi
      simp only [decide_eq_true_eq]
      rintro ⟨hu, -, -⟩
      exact hbne ((crawl_page_issue_url b (fetch b) i hi).symm.trans hu)

/-- Witness fetch oracle for C2: the root "r" parses successfully with one
internal link to "a"; every other fetch fails. -/
def c2fetch : String → Option ParsedPage :=
  fun u => if u = "r" then some { statusCode := 200, internalLinks := ["a"] }
    else none

/-- Running the witness crawl: "r" and then "a" get processed. -/
theorem c2processed :
    (crawl_website c2fetch "t" "r" 2).2.2.processed = ["r", "a"] := by
  unfold crawl_website
  dsimp only
  rw [crawlLoop_process_step c2fetch 2 "r" [] ∅ [] []
    { processed := [], visitedTrace := [], frontierTrace := [], enqueueLog := ["r"] }
    (by decide) (by decide)]
  dsimp only
  rw [show enqueueLinks (insert "r" ∅) [] ["r"] (crawl_page "r" (c2fetch "r")).2.1 =
    (["a"], ["r", "a"]) from by decide]
  dsimp only
  rw [crawlLoop_process_step c2fetch 2 "a" [] (insert "r" ∅) _ _ _
    (by decide) (by decide)]
  rw [crawlLoop_stop_card c2fetch 2 _ (insert "a" (insert "r" ∅)) _ _ _ (by decide)]
  decide

/-- Witness for C2 (amended) at the two-page crawl "r" → "a", where "r"
succeeds and "a"'s fetch fails. -/
theorem crawl_page_failure_isolated_witness :
    c2fetch "a" = none ∧
    "a" ∈ (crawl_website c2fetch "t" "r" 2).2.2.processed ∧
    (∃ w ∈ (crawl_website c2fetch "t" "r" 2).2.2.processed,
      (c2fetch w).isSome = true) ∧
    (∃ res : CrawlResult,
      (crawl_website c2fetch "t" "r" 2).1 = some res ∧
      res.status = CrawlStatus.completed ∧
      ({ url := "a", status_code := 0 } : PageData) ∈ res.pages ∧
      res.issues.countP (fun i => i.url = "a" ∧ i.issue_type = "crawl_error" ∧
        i.severity = "error") = 1 ∧
      res.pages = (crawl_website c2fetch "t" "r" 2).2.2.processed.map
        (fun u => (crawl_page u (c2fetch u)).1)) :=
  ⟨by decide,
   by rw [c2processed]; decide,
   ⟨"r", by rw [c2processed]; decide, by decide⟩,
   crawl_page_failure_isolated c2fetch "t" "r" "a" 2 (by decide)
     (by rw [c2processed]; decide)
     ⟨"r", by rw [c2processed]; decide, by decide⟩⟩

end OpenSEO
